import Mathlib

/-!
# Verification of the scclust NNG-clustering core

Shallow embedding of the size-constrained-clustering core of the
fsavje/TinyBigGraphs (scclust) library, translated from:

* `src/unnamed/part_002` (`digraph_operations.c`): union, union-and-delete,
  difference, transpose, adjacency product over CSR digraphs;
* `src/src/nng_findseeds.c`: the six seed-selection algorithms, the
  inwards-count sort index and its cursor-aware decrement;
* `src/unnamed/part_001` (`nng_batch_clustering.c`): the batched NNG
  clusterer;
* `src/src/error.c`: the last-error retrieval.

Machine integers (`scc_Dpid`, `scc_Clabel`, `scc_Arci`, all `uint32_t`) are
modelled as `Nat`; the algorithms never overflow them on inputs satisfying the
library's own capacity bounds (`n < SCC_DPID_MAX` etc.), which appear as
hypotheses where relevant.  Heap allocation is not modelled; `NO_MEMORY`
paths vanish, except where a claim is about them (the seed-array shrink,
where the `realloc` outcome is an explicit parameter).
-/

namespace SCC

/-- `UINT32_MAX`: maximum of `scc_Clabel` (= `SCC_CLABEL_MAX`). -/
def SCC_CLABEL_MAX : Nat := 4294967295

/-- `UINT32_MAX`: label sentinel for unassigned vertices (= `SCC_CLABEL_NA`). -/
def SCC_CLABEL_NA : Nat := 4294967295

/-- `UINT32_MAX`: maximum of `scc_Dpid` / `scc_PointIndex`. -/
def SCC_DPID_MAX : Nat := 4294967295

/-- `UINT32_MAX`: point-index sentinel (`SCC_DPID_NA`), the initial row-marker value. -/
def SCC_DPID_NA : Nat := 4294967295

/-- The `scc_ErrorCode` enumeration from `include/scclust.h` / `error.c`. -/
inductive scc_ErrorCode where
  | SCC_ER_OK
  | SCC_ER_UNKNOWN_ERROR
  | SCC_ER_INVALID_INPUT
  | SCC_ER_NO_MEMORY
  | SCC_ER_NO_SOLUTION
  | SCC_ER_TOO_LARGE_PROBLEM
  | SCC_ER_TOO_LARGE_DIGRAPH
  | SCC_ER_DIST_SEARCH_ERROR
  | SCC_ER_NOT_IMPLEMENTED
  deriving DecidableEq, Repr

open scc_ErrorCode

/-- The CSR digraph container (`iscc_Digraph` from `digraph_core.h`):
`tail_ptr` has `vertices + 1` entries, `head` holds the concatenated
destination lists. -/
structure iscc_Digraph where
  vertices : Nat
  max_arcs : Nat
  tail_ptr : List Nat
  head : List Nat
  deriving DecidableEq, Repr, Inhabited

/-- Out-neighbor list of `v`: `head[tail_ptr[v] .. tail_ptr[v+1])`. -/
def iscc_row (g : iscc_Digraph) (v : Nat) : List Nat :=
  (g.head.take (g.tail_ptr.getD (v + 1) 0)).drop (g.tail_ptr.getD v 0)

/-- Closed out-neighborhood `{v} ∪ out(v)` of a vertex (glossary of the spec). -/
def iscc_closed_nbhd (g : iscc_Digraph) (v : Nat) : List Nat :=
  v :: iscc_row g v

/-- Prefix sums: entry `i` is the sum of the first `i` elements (length
`l.length + 1`).  This is the `tail_ptr` produced by the write pass of every
algebraic operator, which sets `out_tail_ptr[0] = 0` and
`out_tail_ptr[v+1] = counter` after emitting row `v`. -/
def iscc_cumsum (l : List Nat) : List Nat :=
  (List.range (l.length + 1)).map (fun i => (l.take i).sum)

/-- Assemble a CSR digraph from its per-row destination lists, with the arc
storage shrunk to the exact count (`iscc_change_arc_storage` after the write
pass sets `max_arcs` to the number of arcs written). -/
def iscc_fromRows (rows : List (List Nat)) : iscc_Digraph :=
  { vertices := rows.length
    max_arcs := rows.flatten.length
    tail_ptr := iscc_cumsum (rows.map List.length)
    head := rows.flatten }

/-- Modelled from the spec: `iscc_digraph_is_valid` lives in the missing
`digraph_core.c`; the spec's data model (§3) requires `n < PMAX`,
`tail_ptr` of length `n+1`, monotone, starting at `0`, ending `≤ max_arcs`,
`max_arcs ≤ AMAX` with the used prefix of `head` in bounds and every
destination in `[0, n)`. -/
def iscc_digraph_is_valid (g : iscc_Digraph) : Bool :=
  g.vertices < SCC_DPID_MAX &&
  g.tail_ptr.length = g.vertices + 1 &&
  g.tail_ptr.getD 0 0 = 0 &&
  (List.range g.vertices).all
    (fun v => g.tail_ptr.getD v 0 ≤ g.tail_ptr.getD (v + 1) 0) &&
  g.tail_ptr.getD g.vertices 0 ≤ g.max_arcs &&
  g.tail_ptr.getD g.vertices 0 ≤ g.head.length &&
  (g.head.take (g.tail_ptr.getD g.vertices 0)).all (fun x => x < g.vertices)

/-- `iscc_digraph_is_empty`: a digraph with no arcs. -/
def iscc_digraph_is_empty (g : iscc_Digraph) : Bool :=
  g.tail_ptr.getD g.vertices 0 = 0

-- ## Basic facts about `iscc_cumsum` / `iscc_fromRows`

theorem iscc_cumsum_getD (l : List Nat) (i : Nat) (h : i ≤ l.length) :
    (iscc_cumsum l).getD i 0 = (l.take i).sum := by
  have hi : i < (List.range (l.length + 1)).length := by
    simpa using Nat.lt_succ_of_le h
  rw [iscc_cumsum, List.getD_eq_getElem _ _ (by simpa using hi)]
  simp

theorem iscc_cumsum_length (l : List Nat) :
    (iscc_cumsum l).length = l.length + 1 := by
  simp [iscc_cumsum]

theorem iscc_fromRows_row (rows : List (List Nat)) (v : Nat)
    (hv : v < rows.length) :
    iscc_row (iscc_fromRows rows) v = rows.getD v [] := by
  unfold iscc_row iscc_fromRows
  simp only
  rw [iscc_cumsum_getD _ (v + 1) (by simpa using hv),
      iscc_cumsum_getD _ v (le_of_lt (by simpa using hv))]
  rw [List.take_sum_flatten rows (v + 1)]
  have hmin : min v (v + 1) = v := by omega
  have htk : (List.map List.length rows).take v
      = ((rows.take (v + 1)).map List.length).take v := by
    rw [List.map_take, List.take_take, hmin]
  rw [htk, List.drop_sum_flatten (rows.take (v + 1)) v]
  have hone : (rows.take (v + 1)).drop v = [rows.getD v []] := by
    rw [List.drop_take]
    have h1 : v + 1 - v = 1 := by omega
    rw [h1]
    have hlen : v < (rows.drop v).length + v := by
      simp [List.length_drop]; omega
    rcases hd : rows.drop v with _ | ⟨a, t⟩
    · exfalso
      have := congrArg List.length hd
      simp [List.length_drop] at this
      omega
    · have ha : rows.getD v [] = a := by
        have h0 : (rows.drop v).getD 0 [] = a := by rw [hd]; rfl
        rw [List.getD_eq_getElem _ _ (by simp [List.length_drop]; omega)] at h0
        rw [List.getD_eq_getElem _ _ hv]
        simpa using h0
      simp only [List.take_succ_cons, List.take_zero]
      rw [ha]
  rw [hone]
  simp

theorem iscc_fromRows_tail_ptr_last (rows : List (List Nat)) :
    (iscc_fromRows rows).tail_ptr.getD rows.length 0 = rows.flatten.length := by
  show (iscc_cumsum (rows.map List.length)).getD rows.length 0 = _
  rw [iscc_cumsum_getD _ rows.length (by simp)]
  simp [List.length_flatten, List.take_of_length_le]

theorem iscc_rangeMap_getD (n v : Nat) (f : Nat → List Nat) (hv : v < n) :
    ((List.range n).map f).getD v [] = f v := by
  rw [List.getD_eq_getElem _ _ (by simpa using hv)]
  simp

/-- Row `v` of an operator result built with `iscc_fromRows` over
`(List.range n).map f` is `f v`. -/
theorem iscc_op_row (n v : Nat) (f : Nat → List Nat) (hv : v < n) :
    iscc_row (iscc_fromRows ((List.range n).map f)) v = f v := by
  rw [iscc_fromRows_row _ _ (by simpa using hv), iscc_rangeMap_getD n v f hv]

-- ## The row-marker emit loops (`digraph_operations.c`)

/-- The shared inner loop of `iscc_do_union` / `iscc_do_union_and_delete` /
`iscc_do_adjacency_product` (write pass): walk the concatenated arc stream,
emit a destination iff its row marker is not set (`row_markers[x] != v`),
then set the marker.  `seen` is the set of already-marked destinations. -/
def iscc_mark_emit (seen : List Nat) : List Nat → List Nat
  | [] => []
  | x :: xs =>
    if x ∈ seen then iscc_mark_emit seen xs
    else x :: iscc_mark_emit (x :: seen) xs

theorem iscc_mark_emit_mem (xs : List Nat) : ∀ (seen : List Nat) (y : Nat),
    y ∈ iscc_mark_emit seen xs ↔ (y ∉ seen ∧ y ∈ xs) := by
  induction xs with
  | nil => intro seen y; simp [iscc_mark_emit]
  | cons x xs ih =>
    intro seen y
    by_cases hx : x ∈ seen
    · rw [iscc_mark_emit, if_pos hx, ih]
      constructor
      · rintro ⟨h1, h2⟩; exact ⟨h1, List.mem_cons_of_mem _ h2⟩
      · rintro ⟨h1, h2⟩
        rcases List.mem_cons.mp h2 with rfl | h2
        · exact absurd hx h1
        · exact ⟨h1, h2⟩
    · rw [iscc_mark_emit, if_neg hx]
      constructor
      · intro h
        rcases List.mem_cons.mp h with rfl | h
        · exact ⟨hx, List.mem_cons_self _ _⟩
        · rcases (ih _ _).mp h with ⟨h1, h2⟩
          exact ⟨fun hy => h1 (List.mem_cons_of_mem _ hy), List.mem_cons_of_mem _ h2⟩
      · rintro ⟨h1, h2⟩
        rcases List.mem_cons.mp h2 with rfl | h2
        · exact List.mem_cons_self _ _
        · by_cases hyx : y = x
          · subst hyx; exact List.mem_cons_self _ _
          · exact List.mem_cons_of_mem _ ((ih _ _).mpr
              ⟨fun hy => (List.mem_cons.mp hy).elim hyx h1, h2⟩)

theorem iscc_mark_emit_nodup (xs : List Nat) : ∀ (seen : List Nat),
    (iscc_mark_emit seen xs).Nodup := by
  induction xs with
  | nil => intro seen; simp [iscc_mark_emit]
  | cons x xs ih =>
    intro seen
    by_cases hx : x ∈ seen
    · rw [iscc_mark_emit, if_pos hx]; exact ih seen
    · rw [iscc_mark_emit, if_neg hx]
      refine List.nodup_cons.mpr ⟨fun hmem => ?_, ih _⟩
      exact ((iscc_mark_emit_mem _ _ _).mp hmem).1 (List.mem_cons_self _ _)

/-- The inner loop of `iscc_do_difference` (write pass): emit a minuend arc
iff its marker is unset, stopping once `row_counter` reaches
`max_out_degree`; emitted arcs are *not* marked. -/
def iscc_diff_emit (marked : List Nat) (d_max : Nat) : Nat → List Nat → List Nat
  | _, [] => []
  | cnt, x :: xs =>
    if cnt < d_max then
      if x ∈ marked then iscc_diff_emit marked d_max cnt xs
      else x :: iscc_diff_emit marked d_max (cnt + 1) xs
    else []

theorem iscc_diff_emit_eq (marked : List Nat) (d_max : Nat) (xs : List Nat) :
    ∀ cnt, iscc_diff_emit marked d_max cnt xs
      = (xs.filter (fun x => decide (x ∉ marked))).take (d_max - cnt) := by
  induction xs with
  | nil => intro cnt; simp [iscc_diff_emit]
  | cons x xs ih =>
    intro cnt
    by_cases hc : cnt < d_max
    · by_cases hx : x ∈ marked
      · rw [iscc_diff_emit, if_pos hc, if_pos hx, ih cnt]
        simp [hx]
      · rw [iscc_diff_emit, if_pos hc, if_neg hx, ih (cnt + 1)]
        have : d_max - cnt = (d_max - (cnt + 1)) + 1 := by omega
        simp only [List.filter_cons, hx, decide_not]
        rw [this]
        simp [hx]
    · rw [iscc_diff_emit, if_neg hc]
      have : d_max - cnt = 0 := by omega
      simp [this]

-- ## The algebraic operators

/-- Row `v` of `iscc_do_union` (write pass): before walking the input rows,
the marker of `v` itself is set (`row_markers[v] = v`), so self-loops are
never emitted; the arc stream is the concatenation of row `v` of every input
digraph. -/
def iscc_union_row (dgs : List iscc_Digraph) (v : Nat) : List Nat :=
  iscc_mark_emit [v] (dgs.flatMap (fun d => iscc_row d v))

/-- `iscc_digraph_union`: vertex count is taken from `in_dgs[0]`; the write
pass emits rows, then the arc storage is shrunk to the exact count. -/
def iscc_digraph_union (dgs : List iscc_Digraph) : iscc_Digraph :=
  iscc_fromRows ((List.range (dgs.headI.vertices)).map (iscc_union_row dgs))

/-- Row `v` of `iscc_do_union_and_delete` (write pass): rows whose
`tails_to_keep[v]` is false emit nothing; otherwise exactly the union row. -/
def iscc_union_and_delete_row (dgs : List iscc_Digraph) (keep : Nat → Bool)
    (v : Nat) : List Nat :=
  if keep v then iscc_mark_emit [v] (dgs.flatMap (fun d => iscc_row d v)) else []

def iscc_digraph_union_and_delete (dgs : List iscc_Digraph)
    (keep : Nat → Bool) : iscc_Digraph :=
  iscc_fromRows ((List.range (dgs.headI.vertices)).map
    (iscc_union_and_delete_row dgs keep))

/-- Row `v` of `iscc_do_difference` (write pass): the markers hold `v` itself
(`row_markers[v] = v`) and all of the subtrahend's row `v`. -/
def iscc_difference_row (v d_max : Nat) (mrow srow : List Nat) : List Nat :=
  iscc_diff_emit (v :: srow) d_max 0 mrow

/-- `iscc_digraph_difference`.  The source reads `in_dgs[0].vertices` for the
vertex count, an identifier that does not exist in that function; modelled
from the spec (§9): the minuend's vertex count is used (the function asserts
`minuend_dg->vertices == subtrahend_dg->vertices`). -/
def iscc_digraph_difference (minuend subtrahend : iscc_Digraph)
    (max_out_degree : Nat) : iscc_Digraph :=
  iscc_fromRows ((List.range minuend.vertices).map (fun v =>
    iscc_difference_row v max_out_degree (iscc_row minuend v)
      (iscc_row subtrahend v)))

/-- Row `c` of `iscc_digraph_transpose`: the counting sort bumps a counter
for every arc into `c`, prefix-sums, then scatters row-by-row filling each
output row from its end backwards, so the sources appear in descending
vertex order. -/
def iscc_transpose_row (g : iscc_Digraph) (c : Nat) : List Nat :=
  (List.range g.vertices).reverse.flatMap
    (fun v => List.replicate ((iscc_row g v).count c) v)

/-- `iscc_digraph_transpose`: allocated with `iscc_empty_digraph(n,
in_dg->tail_ptr[n])` and never shrunk, so `max_arcs` is the input's total
arc count. -/
def iscc_digraph_transpose (g : iscc_Digraph) : iscc_Digraph :=
  { iscc_fromRows ((List.range g.vertices).map (iscc_transpose_row g)) with
      max_arcs := g.tail_ptr.getD g.vertices 0 }

/-- Row `v` of `iscc_do_adjacency_product` (write pass): marker of `v` is
pre-set (no self-loops in the output); when `force_loops`, row `v` of `B` is
emitted first; then for each `a ∈ A.out(v)` — skipping `a = v` when either
flag is set — all of `B.out(a)`. -/
def iscc_adjacency_product_row (a b : iscc_Digraph)
    (force_loops ignore_loops : Bool) (v : Nat) : List Nat :=
  iscc_mark_emit [v]
    ((if force_loops then iscc_row b v else []) ++
     (iscc_row a v).flatMap (fun x =>
       if x = v ∧ (force_loops || ignore_loops) then [] else iscc_row b x))

def iscc_adjacency_product (a b : iscc_Digraph)
    (force_loops ignore_loops : Bool) : iscc_Digraph :=
  iscc_fromRows ((List.range a.vertices).map
    (iscc_adjacency_product_row a b force_loops ignore_loops))

-- ## Consequences of digraph validity

theorem iscc_valid_fields (g : iscc_Digraph)
    (hg : iscc_digraph_is_valid g = true) :
    g.vertices < SCC_DPID_MAX ∧ g.tail_ptr.length = g.vertices + 1 ∧
    g.tail_ptr.getD 0 0 = 0 ∧
    (∀ v < g.vertices, g.tail_ptr.getD v 0 ≤ g.tail_ptr.getD (v + 1) 0) ∧
    g.tail_ptr.getD g.vertices 0 ≤ g.max_arcs ∧
    g.tail_ptr.getD g.vertices 0 ≤ g.head.length ∧
    (∀ x ∈ g.head.take (g.tail_ptr.getD g.vertices 0), x < g.vertices) := by
  unfold iscc_digraph_is_valid at hg
  simp only [Bool.and_eq_true, decide_eq_true_eq, List.all_eq_true,
    List.mem_range] at hg
  tauto

theorem iscc_valid_mono (g : iscc_Digraph)
    (hg : iscc_digraph_is_valid g = true) :
    ∀ i j, i ≤ j → j ≤ g.vertices →
      g.tail_ptr.getD i 0 ≤ g.tail_ptr.getD j 0 := by
  obtain ⟨-, -, -, hadj, -, -, -⟩ := iscc_valid_fields g hg
  intro i j hij hj
  obtain ⟨d, rfl⟩ := Nat.exists_eq_add_of_le hij
  clear hij
  induction d with
  | zero => simp
  | succ d ih =>
    have h1 : i + d < g.vertices := by omega
    have h2 : i + (d + 1) = (i + d) + 1 := by omega
    rw [h2]
    exact le_trans (ih (by omega)) (hadj _ h1)

theorem iscc_valid_row_mem (g : iscc_Digraph)
    (hg : iscc_digraph_is_valid g = true) (v x : Nat)
    (hx : x ∈ iscc_row g v) : x < g.vertices := by
  obtain ⟨-, hlen, -, -, -, -, hall⟩ := iscc_valid_fields g hg
  by_cases hv : v < g.vertices
  · have h1 : g.tail_ptr.getD (v + 1) 0 ≤ g.tail_ptr.getD g.vertices 0 :=
      iscc_valid_mono g hg (v + 1) g.vertices (by omega) le_rfl
    have h2 : x ∈ g.head.take (g.tail_ptr.getD (v + 1) 0) :=
      List.mem_of_mem_drop hx
    have h3 : x ∈ g.head.take (g.tail_ptr.getD g.vertices 0) := by
      have : g.head.take (g.tail_ptr.getD (v + 1) 0)
          = (g.head.take (g.tail_ptr.getD g.vertices 0)).take
              (g.tail_ptr.getD (v + 1) 0) := by
        rw [List.take_take, Nat.min_eq_left h1]
      rw [this] at h2
      exact List.mem_of_mem_take h2
    exact hall x h3
  · exfalso
    have hout : g.tail_ptr.getD (v + 1) 0 = 0 :=
      List.getD_eq_default _ _ (by omega)
    rw [iscc_row, hout] at hx
    simp at hx

theorem iscc_valid_row_length (g : iscc_Digraph)
    (hg : iscc_digraph_is_valid g = true) (v : Nat) (hv : v < g.vertices) :
    (iscc_row g v).length
      = g.tail_ptr.getD (v + 1) 0 - g.tail_ptr.getD v 0 := by
  obtain ⟨-, -, -, -, -, hhd, -⟩ := iscc_valid_fields g hg
  have h1 : g.tail_ptr.getD (v + 1) 0 ≤ g.head.length :=
    le_trans (iscc_valid_mono g hg (v + 1) g.vertices (by omega) le_rfl) hhd
  rw [iscc_row, List.length_drop, List.length_take, Nat.min_eq_left h1]

theorem iscc_valid_tail_ptr_sum (g : iscc_Digraph)
    (hg : iscc_digraph_is_valid g = true) :
    ∀ i, i ≤ g.vertices →
      g.tail_ptr.getD i 0
        = ((List.range i).map (fun v => (iscc_row g v).length)).sum := by
  obtain ⟨-, -, h0, hadj, -, -, -⟩ := iscc_valid_fields g hg
  intro i hi
  induction i with
  | zero => simpa using h0
  | succ i ih =>
    rw [List.range_succ, List.map_append, List.sum_append,
      ← ih (by omega)]
    have hlen := iscc_valid_row_length g hg i (by omega)
    have hle := hadj i (by omega)
    simp only [List.map_cons, List.map_nil, List.sum_cons, List.sum_nil,
      Nat.add_zero]
    omega

-- ## CSR invariants (§8 of the spec, claim C7)

/-- The first three CSR invariants: `tail_ptr` monotone non-decreasing,
`tail_ptr[n] ≤ max_arcs`, every destination in `[0, n)`. -/
def iscc_csr_shape (g : iscc_Digraph) : Prop :=
  (∀ v < g.vertices, g.tail_ptr.getD v 0 ≤ g.tail_ptr.getD (v + 1) 0) ∧
  g.tail_ptr.getD g.vertices 0 ≤ g.max_arcs ∧
  (∀ x ∈ g.head, x < g.vertices)

/-- All four CSR invariants of claim C7: the shape invariants plus
"no destination appears twice within the same row". -/
def iscc_csr_invariants (g : iscc_Digraph) : Prop :=
  iscc_csr_shape g ∧ ∀ v < g.vertices, (iscc_row g v).Nodup

instance (g : iscc_Digraph) : Decidable (iscc_csr_shape g) := by
  unfold iscc_csr_shape; infer_instance

instance (g : iscc_Digraph) : Decidable (iscc_csr_invariants g) := by
  unfold iscc_csr_invariants; infer_instance

theorem iscc_fromRows_shape (n : Nat) (f : Nat → List Nat)
    (hf : ∀ v, v < n → ∀ x ∈ f v, x < n) :
    iscc_csr_shape (iscc_fromRows ((List.range n).map f)) := by
  have hnv : (iscc_fromRows ((List.range n).map f)).vertices = n := by
    simp [iscc_fromRows]
  refine ⟨?_, ?_, ?_⟩
  · intro v hv
    rw [hnv] at hv
    show (iscc_cumsum _).getD v 0 ≤ (iscc_cumsum _).getD (v + 1) 0
    rw [iscc_cumsum_getD _ v (by simp; omega),
        iscc_cumsum_getD _ (v + 1) (by simp; omega)]
    rw [List.sum_take_succ _ v (by simp; omega)]
    exact Nat.le_add_right _ _
  · rw [hnv]
    have := iscc_fromRows_tail_ptr_last ((List.range n).map f)
    simp only [List.length_map, List.length_range] at this
    rw [this]
    exact le_rfl
  · intro x hx
    rw [hnv]
    rcases List.mem_flatten.mp hx with ⟨r, hr, hxr⟩
    rcases List.mem_map.mp hr with ⟨v, hv, rfl⟩
    exact hf v (List.mem_range.mp hv) x hxr

theorem iscc_fromRows_nodup (n : Nat) (f : Nat → List Nat)
    (hf : ∀ v, v < n → (f v).Nodup) :
    ∀ v, v < (iscc_fromRows ((List.range n).map f)).vertices →
      (iscc_row (iscc_fromRows ((List.range n).map f)) v).Nodup := by
  intro v hv
  have hvn : v < n := by simpa [iscc_fromRows] using hv
  rw [iscc_op_row n v f hvn]
  exact hf v hvn

-- ## Claim C4: digraph difference

/-- The difference row as claim C4's words state it: the first at-most-`d_max`
entries of `A.out(v)` that do not occur in `B.out(v)`, in `A`-order. -/
def spec_difference_row (d_max : Nat) (arow brow : List Nat) : List Nat :=
  (arow.filter (fun x => decide (x ∉ brow))).take d_max

/-- The row actually produced by `iscc_do_difference`: the marker set also
contains the source vertex `v` itself (`row_markers[v] = v` runs before the
subtrahend row is marked). -/
theorem iscc_difference_row_eq (v d_max : Nat) (mrow srow : List Nat) :
    iscc_difference_row v d_max mrow srow
      = (mrow.filter (fun x => decide (x ≠ v ∧ x ∉ srow))).take d_max := by
  rw [iscc_difference_row, iscc_diff_emit_eq]
  simp only [Nat.sub_zero]
  congr 1
  apply List.filter_congr
  intro x _
  simp [List.mem_cons, not_or]

/-- Example digraph: one vertex with a self-loop. -/
def iscc_exSelf1 : iscc_Digraph := ⟨1, 1, [0, 1], [0]⟩

/-- Example digraph: one vertex, no arcs. -/
def iscc_exNoArcs1 : iscc_Digraph := ⟨1, 0, [0, 0], []⟩

/-- Claim C4 fails as stated: on the valid one-vertex digraph with a
self-loop, minus the arc-free digraph, the claim predicts the row `[0]`
(the self-loop does not occur in the subtrahend's row), but the code's
row-marker protocol pre-marks the source vertex, so the self-loop is
dropped and the output row is empty. -/
theorem claim_C4_cex :
    iscc_digraph_is_valid iscc_exSelf1 = true ∧
    iscc_digraph_is_valid iscc_exNoArcs1 = true ∧
    iscc_row (iscc_digraph_difference iscc_exSelf1 iscc_exNoArcs1 1) 0
      ≠ spec_difference_row 1 (iscc_row iscc_exSelf1 0)
          (iscc_row iscc_exNoArcs1 0) := by
  decide

/-- Claim C4 (amended): the difference `A \ B` with out-degree cap `d_max`
has the minuend's vertex count, and for every vertex `v` the output row is
the first at-most-`d_max` entries of `A.out(v)` that occur neither in
`B.out(v)` nor equal `v` itself (the row-marker protocol pre-marks the
source vertex, so self-loops are always removed), preserving their order in
`A`; `difference(g, g)` is the empty digraph. -/
theorem claim_C4 (m s g : iscc_Digraph) (d_max : Nat) :
    (iscc_digraph_difference m s d_max).vertices = m.vertices ∧
    (∀ v, v < m.vertices →
      iscc_row (iscc_digraph_difference m s d_max) v
        = ((iscc_row m v).filter
            (fun x => decide (x ≠ v ∧ x ∉ iscc_row s v))).take d_max) ∧
    iscc_digraph_is_empty (iscc_digraph_difference g g d_max) = true := by
  refine ⟨by simp [iscc_digraph_difference, iscc_fromRows], ?_, ?_⟩
  · intro v hv
    rw [iscc_digraph_difference, iscc_op_row _ _ _ hv,
      iscc_difference_row_eq]
  · have hrows : ∀ v, iscc_difference_row v d_max (iscc_row g v)
        (iscc_row g v) = [] := by
      intro v
      rw [iscc_difference_row_eq]
      have : (iscc_row g v).filter
          (fun x => decide (x ≠ v ∧ x ∉ iscc_row g v)) = [] := by
        apply List.filter_eq_nil_iff.mpr
        intro x hx
        simp [hx]
      rw [this]
      simp
    show decide _ = true
    rw [decide_eq_true_eq]
    show (iscc_fromRows _).tail_ptr.getD
        (iscc_fromRows _).vertices 0 = 0
    have hvv : (iscc_fromRows ((List.range g.vertices).map (fun v =>
        iscc_difference_row v d_max (iscc_row g v) (iscc_row g v)))).vertices
        = ((List.range g.vertices).map (fun v =>
        iscc_difference_row v d_max (iscc_row g v) (iscc_row g v))).length := by
      simp [iscc_fromRows]
    rw [hvv, iscc_fromRows_tail_ptr_last]
    rw [List.length_eq_zero]
    apply List.flatten_eq_nil_iff.mpr
    intro r hr
    rcases List.mem_map.mp hr with ⟨v, -, rfl⟩
    exact hrows v

/-- Witness for claim C4 at the one-vertex self-loop digraph. -/
theorem claim_C4_witness :
    (iscc_digraph_difference iscc_exSelf1 iscc_exNoArcs1 1).vertices
      = iscc_exSelf1.vertices ∧
    iscc_row (iscc_digraph_difference iscc_exSelf1 iscc_exNoArcs1 1) 0
      = ((iscc_row iscc_exSelf1 0).filter
          (fun x => decide (x ≠ 0 ∧ x ∉ iscc_row iscc_exNoArcs1 0))).take 1 ∧
    iscc_digraph_is_empty
      (iscc_digraph_difference iscc_exSelf1 iscc_exSelf1 1) = true :=
  ⟨(claim_C4 iscc_exSelf1 iscc_exNoArcs1 iscc_exSelf1 1).1,
   (claim_C4 iscc_exSelf1 iscc_exNoArcs1 iscc_exSelf1 1).2.1 0 (by decide),
   (claim_C4 iscc_exSelf1 iscc_exNoArcs1 iscc_exSelf1 1).2.2⟩

-- ## Claim C7: CSR invariants of the operator outputs

/-- Example digraph on two vertices whose first row holds a duplicated arc:
`tail_ptr` is monotone and in bounds, so it passes the validity predicate
(the data model does not require duplicate-freedom of inputs). -/
def iscc_exDup2 : iscc_Digraph := ⟨2, 2, [0, 2, 2], [1, 1]⟩

/-- Example digraph: two vertices, no arcs. -/
def iscc_exNoArcs2 : iscc_Digraph := ⟨2, 0, [0, 0, 0], []⟩

/-- Example digraph on two vertices: `0 → 1`, `1 → 0`. -/
def iscc_exSwap2 : iscc_Digraph := ⟨2, 2, [0, 1, 2], [1, 0]⟩

/-- Claim C7 fails as stated: the difference of two valid digraphs with
`n = 2 > 0` can violate the within-row no-duplicate invariant, because
`iscc_do_difference` — unlike the union and product loops — never sets the
row marker of an emitted arc, so a duplicated minuend arc is emitted twice. -/
theorem claim_C7_cex :
    iscc_digraph_is_valid iscc_exDup2 = true ∧
    iscc_digraph_is_valid iscc_exNoArcs2 = true ∧
    ¬ iscc_csr_invariants
        (iscc_digraph_difference iscc_exDup2 iscc_exNoArcs2 2) := by
  refine ⟨by decide, by decide, ?_⟩
  intro h
  have := h.2 0 (by decide)
  rw [show iscc_row (iscc_digraph_difference iscc_exDup2 iscc_exNoArcs2 2) 0
      = [1, 1] from by decide] at this
  simp at this

theorem iscc_union_row_bound (n : Nat) (dgs : List iscc_Digraph)
    (hdgs : ∀ d ∈ dgs, iscc_digraph_is_valid d = true ∧ d.vertices = n) :
    ∀ v, v < n → ∀ x ∈ iscc_union_row dgs v, x < n := by
  intro v _ x hx
  have hx2 := ((iscc_mark_emit_mem _ _ _).mp hx).2
  rcases List.mem_flatMap.mp hx2 with ⟨d, hd, hxd⟩
  obtain ⟨hdv, hdn⟩ := hdgs d hd
  have := iscc_valid_row_mem d hdv v x hxd
  omega

theorem iscc_uad_row_bound (n : Nat) (dgs : List iscc_Digraph)
    (hdgs : ∀ d ∈ dgs, iscc_digraph_is_valid d = true ∧ d.vertices = n)
    (keep : Nat → Bool) :
    ∀ v, v < n → ∀ x ∈ iscc_union_and_delete_row dgs keep v, x < n := by
  intro v hv x hx
  rw [iscc_union_and_delete_row] at hx
  by_cases hk : keep v
  · rw [if_pos hk] at hx
    exact iscc_union_row_bound n dgs hdgs v hv x hx
  · rw [if_neg hk] at hx
    simp at hx

theorem iscc_product_row_bound (n : Nat) (a b : iscc_Digraph)
    (hb : iscc_digraph_is_valid b = true) (hbn : b.vertices = n)
    (fl il : Bool) :
    ∀ v, v < n → ∀ x ∈ iscc_adjacency_product_row a b fl il v, x < n := by
  intro v _ x hx
  have hx2 := ((iscc_mark_emit_mem _ _ _).mp hx).2
  rcases List.mem_append.mp hx2 with h | h
  · by_cases hfl : fl = true
    · rw [if_pos hfl] at h
      have := iscc_valid_row_mem b hb v x h
      omega
    · rw [if_neg hfl] at h
      simp at h
  · rcases List.mem_flatMap.mp h with ⟨y, -, hxy⟩
    by_cases hc : y = v ∧ (fl || il) = true
    · rw [if_pos hc] at hxy
      simp at hxy
    · rw [if_neg hc] at hxy
      have := iscc_valid_row_mem b hb y x hxy
      omega

theorem iscc_difference_row_bound (n : Nat) (m s : iscc_Digraph)
    (hm : iscc_digraph_is_valid m = true) (hmn : m.vertices = n)
    (d_max : Nat) :
    ∀ v, v < n → ∀ x ∈ iscc_difference_row v d_max (iscc_row m v)
      (iscc_row s v), x < n := by
  intro v _ x hx
  rw [iscc_difference_row_eq] at hx
  have hx2 := List.mem_of_mem_filter (List.mem_of_mem_take hx)
  have := iscc_valid_row_mem m hm v x hx2
  omega

/-- Claim C7 (amended): for non-empty vertex sets and valid inputs of a
common vertex count, union, union-and-delete and adjacency product satisfy
all four CSR invariants; the difference satisfies the three shape
invariants unconditionally, and the no-duplicate invariant whenever the
minuend's rows are duplicate-free (its emit loop does not mark emitted
arcs, so a duplicated minuend arc is reproduced). -/
theorem claim_C7 (n : Nat) (hn : 0 < n)
    (dgs : List iscc_Digraph) (hne : dgs ≠ [])
    (hdgs : ∀ d ∈ dgs, iscc_digraph_is_valid d = true ∧ d.vertices = n)
    (keep : Nat → Bool)
    (a b m s : iscc_Digraph)
    (ha : iscc_digraph_is_valid a = true) (han : a.vertices = n)
    (hb : iscc_digraph_is_valid b = true) (hbn : b.vertices = n)
    (hm : iscc_digraph_is_valid m = true) (hmn : m.vertices = n)
    (hs : iscc_digraph_is_valid s = true) (hsn : s.vertices = n)
    (fl il : Bool) (d_max : Nat) :
    iscc_csr_invariants (iscc_digraph_union dgs) ∧
    iscc_csr_invariants (iscc_digraph_union_and_delete dgs keep) ∧
    iscc_csr_invariants (iscc_adjacency_product a b fl il) ∧
    iscc_csr_shape (iscc_digraph_difference m s d_max) ∧
    ((∀ v, v < n → (iscc_row m v).Nodup) →
      iscc_csr_invariants (iscc_digraph_difference m s d_max)) := by
  have hhead : dgs.headI.vertices = n := by
    rcases dgs with - | ⟨d0, rest⟩
    · exact absurd rfl hne
    · exact (hdgs d0 (List.mem_cons_self _ _)).2
  refine ⟨?_, ?_, ?_, ?_, ?_⟩
  · rw [iscc_digraph_union, hhead]
    exact ⟨iscc_fromRows_shape n _ (iscc_union_row_bound n dgs hdgs),
      iscc_fromRows_nodup n _ (fun v _ => iscc_mark_emit_nodup _ _)⟩
  · rw [iscc_digraph_union_and_delete, hhead]
    refine ⟨iscc_fromRows_shape n _ (iscc_uad_row_bound n dgs hdgs keep),
      iscc_fromRows_nodup n _ (fun v _ => ?_)⟩
    rw [iscc_union_and_delete_row]
    by_cases hk : keep v
    · rw [if_pos hk]; exact iscc_mark_emit_nodup _ _
    · rw [if_neg hk]; exact List.nodup_nil
  · rw [iscc_adjacency_product, han]
    exact ⟨iscc_fromRows_shape n _ (iscc_product_row_bound n a b hb hbn fl il),
      iscc_fromRows_nodup n _ (fun v _ => iscc_mark_emit_nodup _ _)⟩
  · rw [iscc_digraph_difference, hmn]
    exact iscc_fromRows_shape n _ (iscc_difference_row_bound n m s hm hmn d_max)
  · intro hnodup
    rw [iscc_digraph_difference, hmn]
    refine ⟨iscc_fromRows_shape n _
        (iscc_difference_row_bound n m s hm hmn d_max),
      iscc_fromRows_nodup n _ (fun v hv => ?_)⟩
    rw [iscc_difference_row_eq]
    exact List.Sublist.nodup (List.take_sublist _ _) ((hnodup v hv).filter _)

/-- Witness for claim C7 on the two-vertex swap digraph. -/
theorem claim_C7_witness :
    iscc_csr_invariants (iscc_digraph_union [iscc_exSwap2]) ∧
    iscc_csr_invariants
      (iscc_digraph_union_and_delete [iscc_exSwap2] (fun _ => true)) ∧
    iscc_csr_invariants
      (iscc_adjacency_product iscc_exSwap2 iscc_exSwap2 false false) ∧
    iscc_csr_shape (iscc_digraph_difference iscc_exSwap2 iscc_exSwap2 1) ∧
    ((∀ v, v < 2 → (iscc_row iscc_exSwap2 v).Nodup) →
      iscc_csr_invariants (iscc_digraph_difference iscc_exSwap2 iscc_exSwap2 1)) :=
  claim_C7 2 (by decide) [iscc_exSwap2] (by decide)
    (by intro d hd; rw [List.mem_singleton] at hd; subst hd; exact ⟨by decide, by decide⟩)
    (fun _ => true) iscc_exSwap2 iscc_exSwap2 iscc_exSwap2 iscc_exSwap2
    (by decide) (by decide) (by decide) (by decide) (by decide) (by decide)
    (by decide) (by decide) false false 1

-- ## Claim C8: double transpose

theorem iscc_count_flatMap_replicate (l : List Nat) (hl : l.Nodup)
    (c : Nat → Nat) (x : Nat) :
    (l.flatMap (fun w => List.replicate (c w) w)).count x
      = if x ∈ l then c x else 0 := by
  induction l with
  | nil => simp
  | cons w l ih =>
    rcases List.nodup_cons.mp hl with ⟨hw, hl2⟩
    rw [List.flatMap_cons, List.count_append, ih hl2]
    by_cases hx : x = w
    · subst hx
      simp [List.count_replicate, hw]
    · simp [List.count_replicate, hx, Ne.symm hx]

theorem iscc_transpose_vertices (g : iscc_Digraph) :
    (iscc_digraph_transpose g).vertices = g.vertices := by
  simp [iscc_digraph_transpose, iscc_fromRows]

theorem iscc_transpose_row_spec (g : iscc_Digraph) (v : Nat)
    (hv : v < g.vertices) :
    iscc_row (iscc_digraph_transpose g) v = iscc_transpose_row g v := by
  have h : iscc_row (iscc_digraph_transpose g) v
      = iscc_row (iscc_fromRows
          ((List.range g.vertices).map (iscc_transpose_row g))) v := rfl
  rw [h, iscc_op_row _ _ _ hv]

theorem iscc_transpose_row_count (g : iscc_Digraph) (c x : Nat) :
    (iscc_transpose_row g c).count x
      = if x < g.vertices then (iscc_row g x).count c else 0 := by
  rw [iscc_transpose_row,
    iscc_count_flatMap_replicate _ (List.nodup_reverse.mpr (List.nodup_range _))]
  simp [List.mem_reverse, List.mem_range]

/-- Claim C8: transposing twice returns the digraph up to a within-row
permutation of the destinations; `tail_ptr` is recovered exactly. -/
theorem claim_C8 (g : iscc_Digraph) (hg : iscc_digraph_is_valid g = true)
    (hn : 0 < g.vertices) :
    (iscc_digraph_transpose (iscc_digraph_transpose g)).tail_ptr
      = g.tail_ptr ∧
    ∀ v, v < g.vertices →
      (iscc_row (iscc_digraph_transpose (iscc_digraph_transpose g)) v).Perm
        (iscc_row g v) := by
  have htv : (iscc_digraph_transpose g).vertices = g.vertices :=
    iscc_transpose_vertices g
  have hperm : ∀ v, v < g.vertices →
      (iscc_row (iscc_digraph_transpose (iscc_digraph_transpose g)) v).Perm
        (iscc_row g v) := by
    intro v hv
    rw [iscc_transpose_row_spec _ v (by rw [htv]; exact hv)]
    apply List.perm_iff_count.mpr
    intro x
    rw [iscc_transpose_row_count]
    rw [htv]
    by_cases hx : x < g.vertices
    · rw [if_pos hx, iscc_transpose_row_spec g x hx,
        iscc_transpose_row_count, if_pos hv]
    · rw [if_neg hx]
      symm
      rw [List.count_eq_zero]
      intro hmem
      exact hx (iscc_valid_row_mem g hg v x hmem)
  refine ⟨?_, hperm⟩
  obtain ⟨-, hlen, -, -, -, -, -⟩ := iscc_valid_fields g hg
  have hTT : (iscc_digraph_transpose (iscc_digraph_transpose g)).tail_ptr
      = iscc_cumsum (((List.range g.vertices).map
          (iscc_transpose_row (iscc_digraph_transpose g))).map List.length) := by
    show (iscc_fromRows ((List.range (iscc_digraph_transpose g).vertices).map
        (iscc_transpose_row (iscc_digraph_transpose g)))).tail_ptr = _
    rw [htv]
    rfl
  rw [hTT]
  apply List.ext_getElem
  · rw [iscc_cumsum_length]
    simp [hlen]
  · intro i h1 h2
    rw [iscc_cumsum_length] at h1
    simp only [List.length_map, List.length_range] at h1
    have hi : i ≤ g.vertices := by omega
    rw [← List.getD_eq_getElem _ 0 , ← List.getD_eq_getElem _ 0]
    rw [iscc_cumsum_getD _ i (by simp; omega)]
    rw [iscc_valid_tail_ptr_sum g hg i hi]
    rw [List.map_map, ← List.map_take, List.take_range, Nat.min_eq_left hi]
    congr 1
    apply List.map_congr_left
    intro v hvmem
    have hvi : v < g.vertices := by
      have := List.mem_range.mp hvmem
      omega
    show (iscc_transpose_row (iscc_digraph_transpose g) v).length = _
    rw [← iscc_transpose_row_spec (iscc_digraph_transpose g) v
      (by rw [htv]; exact hvi)]
    exact (hperm v hvi).length_eq

/-- Witness for claim C8 on the spec's transpose test digraph
`[[1,2],[],[0]]`. -/
def iscc_exG3 : iscc_Digraph := ⟨3, 3, [0, 2, 2, 3], [1, 2, 0]⟩

theorem claim_C8_witness :
    (iscc_digraph_transpose (iscc_digraph_transpose iscc_exG3)).tail_ptr
      = iscc_exG3.tail_ptr ∧
    (iscc_row (iscc_digraph_transpose (iscc_digraph_transpose iscc_exG3)) 0).Perm
      (iscc_row iscc_exG3 0) :=
  ⟨(claim_C8 iscc_exG3 (by decide) (by decide)).1,
   (claim_C8 iscc_exG3 (by decide) (by decide)).2 0 (by decide)⟩

-- ## The seed finder (`nng_findseeds.c`)

/-- The six seed-selection methods (`scc_SeedMethod`). -/
inductive scc_SeedMethod where
  | SCC_SM_LEXICAL
  | SCC_SM_INWARDS_ORDER
  | SCC_SM_INWARDS_UPDATING
  | SCC_SM_INWARDS_ALT_UPDATING
  | SCC_SM_EXCLUSION_ORDER
  | SCC_SM_EXCLUSION_UPDATING
  deriving DecidableEq, Repr

/-- `iscc_SeedResult`: a dynamically grown list of seeds with count and
capacity. -/
structure iscc_SeedResult where
  capacity : Nat
  count : Nat
  seeds : List Nat
  deriving DecidableEq, Repr, Inhabited

/-- `iscc_fs_add_seed`: fails with `TOO_LARGE_PROBLEM` when `count` already
equals `SCC_CLABEL_MAX`; grows the capacity by `capacity/8 + 1024` (clamped
to `SCC_CLABEL_MAX`) when full (the `realloc` itself is not modelled);
appends the seed. -/
def iscc_fs_add_seed (s : Nat) (r : iscc_SeedResult) :
    Except scc_ErrorCode iscc_SeedResult :=
  if r.count = SCC_CLABEL_MAX then
    .error SCC_ER_TOO_LARGE_PROBLEM
  else
    let r1 := if r.count = r.capacity then
        { r with
            capacity := min (r.capacity + r.capacity / 8 + 1024) SCC_CLABEL_MAX }
      else r
    .ok { r1 with seeds := r1.seeds ++ [s], count := r1.count + 1 }

theorem iscc_fs_add_seed_ok (s : Nat) (r r2 : iscc_SeedResult)
    (h : iscc_fs_add_seed s r = .ok r2) :
    r2.seeds = r.seeds ++ [s] ∧ r2.count = r.count + 1 := by
  rw [iscc_fs_add_seed] at h
  by_cases hc : r.count = SCC_CLABEL_MAX
  · rw [if_pos hc] at h; exact absurd h (by simp)
  · rw [if_neg hc] at h
    simp only [Except.ok.injEq] at h
    subst h
    by_cases hf : r.count = r.capacity <;> simp [hf]

theorem iscc_fs_add_seed_error_iff (s : Nat) (r : iscc_SeedResult) :
    iscc_fs_add_seed s r = .error SCC_ER_TOO_LARGE_PROBLEM
      ↔ r.count = SCC_CLABEL_MAX := by
  rw [iscc_fs_add_seed]
  by_cases hc : r.count = SCC_CLABEL_MAX
  · rw [if_pos hc]; simp [hc]
  · rw [if_neg hc]; simp [hc]

/-- `iscc_fs_check_neighbors_marks`: `v` can be a seed iff `v` is unmarked,
has at least one out-arc and all its out-neighbors are unmarked. -/
def iscc_fs_check_neighbors_marks (v : Nat) (g : iscc_Digraph)
    (marks : Nat → Bool) : Bool :=
  if marks v then false
  else if iscc_row g v = [] then false
  else (iscc_row g v).all (fun x => !marks x)

/-- `iscc_fs_mark_seed_neighbors`: mark all out-neighbors of the seed, then
the seed itself last (so self-loops are tolerated). -/
def iscc_fs_mark_seed_neighbors (s : Nat) (g : iscc_Digraph)
    (marks : Nat → Bool) : Nat → Bool :=
  Function.update
    ((iscc_row g s).foldl (fun m x => Function.update m x true) marks) s true

theorem iscc_foldl_update_true (l : List Nat) (m : Nat → Bool) (x : Nat) :
    l.foldl (fun mm y => Function.update mm y true) m x
      = (m x || decide (x ∈ l)) := by
  induction l generalizing m with
  | nil => simp
  | cons y l ih =>
    rw [List.foldl_cons, ih]
    by_cases hxy : x = y
    · subst hxy; simp
    · simp [Function.update_noteq hxy, hxy]

theorem iscc_fs_mark_seed_neighbors_spec (s : Nat) (g : iscc_Digraph)
    (marks : Nat → Bool) (x : Nat) :
    iscc_fs_mark_seed_neighbors s g marks x
      = (marks x || decide (x ∈ iscc_closed_nbhd g s)) := by
  rw [iscc_fs_mark_seed_neighbors]
  by_cases hx : x = s
  · subst hx; simp [iscc_closed_nbhd]
  · rw [Function.update_noteq hx, iscc_foldl_update_true]
    simp [iscc_closed_nbhd, hx]

theorem iscc_fs_check_neighbors_marks_spec (v : Nat) (g : iscc_Digraph)
    (marks : Nat → Bool) :
    iscc_fs_check_neighbors_marks v g marks = true
      ↔ (iscc_row g v ≠ [] ∧
         ∀ x ∈ iscc_closed_nbhd g v, marks x = false) := by
  rw [iscc_fs_check_neighbors_marks]
  by_cases hv : marks v
  · simp only [if_pos hv]
    constructor
    · intro h; exact absurd h (by simp)
    · rintro ⟨-, hall⟩
      exact absurd (hall v (by simp [iscc_closed_nbhd])) (by simp [hv])
  · rw [if_neg (by simpa using hv)]
    by_cases he : iscc_row g v = []
    · rw [if_pos he]
      constructor
      · intro h; exact absurd h (by simp)
      · rintro ⟨hne, -⟩; exact absurd he hne
    · rw [if_neg he]
      constructor
      · intro h
        refine ⟨he, fun x hx => ?_⟩
        rcases List.mem_cons.mp hx with rfl | hx
        · simpa using hv
        · have := (List.all_eq_true.mp h) x hx
          simpa using this
      · rintro ⟨-, hall⟩
        apply List.all_eq_true.mpr
        intro x hx
        have := hall x (List.mem_cons_of_mem _ hx)
        simp [this]

/-- State of a marks-based scan: the `marks` array, the accumulating seed
result, and the pending error (the C code returns immediately on error; the
step functions are identity once `err` is set). -/
structure iscc_fs_ScanState where
  marks : Nat → Bool
  res : iscc_SeedResult
  err : Option scc_ErrorCode

/-- The shared loop body of the four marks-based methods: test
`iscc_fs_check_neighbors_marks`, on success `iscc_fs_add_seed` (propagating
its error) then `iscc_fs_mark_seed_neighbors`.  Returns whether the vertex
was accepted as a seed. -/
def iscc_fs_try_seed (g : iscc_Digraph) (v : Nat) (st : iscc_fs_ScanState) :
    iscc_fs_ScanState × Bool :=
  if st.err ≠ none then (st, false)
  else if iscc_fs_check_neighbors_marks v g st.marks then
    match iscc_fs_add_seed v st.res with
    | .error e => ({ st with err := some e }, false)
    | .ok r =>
      ({ st with
           res := r
           marks := iscc_fs_mark_seed_neighbors v g st.marks }, true)
  else (st, false)

/-- The seed-list invariant of claim C1: every seed has an out-arc, every
seed's closed neighborhood is fully marked, and closed neighborhoods of
distinct seeds are disjoint; `count` tracks the list length. -/
def iscc_fs_inv (g : iscc_Digraph) (marks : Nat → Bool)
    (r : iscc_SeedResult) : Prop :=
  (∀ s ∈ r.seeds, iscc_row g s ≠ []) ∧
  (∀ s ∈ r.seeds, ∀ x ∈ iscc_closed_nbhd g s, marks x = true) ∧
  r.seeds.Pairwise
    (fun a b => ∀ x ∈ iscc_closed_nbhd g a, x ∉ iscc_closed_nbhd g b) ∧
  r.count = r.seeds.length

theorem iscc_fs_try_seed_inv (g : iscc_Digraph) (v : Nat)
    (st : iscc_fs_ScanState) (h : iscc_fs_inv g st.marks st.res) :
    iscc_fs_inv g (iscc_fs_try_seed g v st).1.marks
      (iscc_fs_try_seed g v st).1.res := by
  rw [iscc_fs_try_seed]
  by_cases he : st.err ≠ none
  · rw [if_pos he]; exact h
  · rw [if_neg he]
    by_cases hc : iscc_fs_check_neighbors_marks v g st.marks
    · rw [if_pos hc]
      obtain ⟨hrow, hmarked⟩ :=
        (iscc_fs_check_neighbors_marks_spec v g st.marks).mp hc
      rcases hadd : iscc_fs_add_seed v st.res with e | r
      · exact h
      · obtain ⟨hseeds, hcount⟩ := iscc_fs_add_seed_ok v st.res r hadd
        obtain ⟨h1, h2, h3, h4⟩ := h
        simp only
        refine ⟨?_, ?_, ?_, ?_⟩
        · intro s hs
          rw [hseeds] at hs
          rcases List.mem_append.mp hs with hs | hs
          · exact h1 s hs
          · rw [List.mem_singleton.mp hs]; exact hrow
        · intro s hs x hx
          rw [hseeds] at hs
          rw [iscc_fs_mark_seed_neighbors_spec]
          rcases List.mem_append.mp hs with hs | hs
          · rw [h2 s hs x hx]; rfl
          · rw [List.mem_singleton.mp hs] at hx
            simp [hx]
        · rw [hseeds]
          apply List.pairwise_append.mpr
          refine ⟨h3, by simp, ?_⟩
          intro a ha b hb x hxa hxb
          rw [List.mem_singleton.mp hb] at hxb
          have hma : st.marks x = true := h2 a ha x hxa
          have hmv : st.marks x = false := hmarked x hxb
          rw [hma] at hmv
          exact absurd hmv (by simp)
        · rw [hseeds, hcount, h4]
          simp
    · rw [if_neg hc]; exact h

-- ## The inwards-count sort index (`iscc_fs_SortResult`)

/-- The four parallel arrays of `iscc_fs_SortResult`, re-architected with
integer indices in place of the source's pointers into `sorted_vertices`
(spec §9: "the moving cursor is a pair of indices, not a pointer"). -/
structure iscc_fs_SortState where
  inwards_count : Nat → Nat
  sorted_vertices : Nat → Nat
  vertex_index : Nat → Nat
  bucket_index : Nat → Nat

/-- In-degree of `v`: `iscc_fs_sort_by_inwards` counts every arc of the
`head` buffer, which for a valid digraph is the concatenation of the rows. -/
def iscc_fs_inwards_count (g : iscc_Digraph) (v : Nat) : Nat :=
  (((List.range g.vertices).map (iscc_row g)).flatten).count v

/-- The counting sort of `iscc_fs_sort_by_inwards`: bucket `k` holds the
vertices of in-degree `k`; the write loop runs `v` from `n-1` down to `0`
filling each bucket from its end, so within a bucket vertices appear in
ascending id order. -/
def iscc_fs_sorted_vertices (g : iscc_Digraph) : List Nat :=
  (List.range (((List.range g.vertices).map
      (iscc_fs_inwards_count g)).foldr max 0 + 1)).flatMap
    (fun k => (List.range g.vertices).filter
      (fun v => iscc_fs_inwards_count g v = k))

/-- The full sort result: `vertex_index[v]` locates `v` in
`sorted_vertices`; `bucket_index[k]` is the first slot of bucket `k`, i.e.
the number of vertices of smaller in-degree. -/
def iscc_fs_sort_by_inwards (g : iscc_Digraph) : iscc_fs_SortState :=
  let sorted := iscc_fs_sorted_vertices g
  { inwards_count := iscc_fs_inwards_count g
    sorted_vertices := fun i => sorted.getD i 0
    vertex_index := fun v => sorted.indexOf v
    bucket_index := fun k =>
      ((List.range g.vertices).filter
        (fun v => iscc_fs_inwards_count g v < k)).length }

/-- `iscc_fs_decrease_v_in_sort` (without `SCC_STABLE_FINDSEED`): move `v`
from the front of its bucket to the end of bucket `k-1`; when the front of
bucket `k` lies at or before the scan cursor, the move target is retargeted
to `cursor + 1` and `bucket_index[k-1]` is set to that retargeted slot. -/
def iscc_fs_decrease_v_in_sort (v cursor : Nat)
    (s : iscc_fs_SortState) : iscc_fs_SortState :=
  let move_from := s.vertex_index v
  let k := s.inwards_count v
  let target := s.bucket_index k
  let retarget : Bool := target ≤ cursor
  let move_to := if retarget then cursor + 1 else target
  let bucket1 := if retarget then
      Function.update s.bucket_index (k - 1) move_to
    else s.bucket_index
  let occupant := s.sorted_vertices move_to
  { inwards_count := Function.update s.inwards_count v (k - 1)
    sorted_vertices :=
      Function.update (Function.update s.sorted_vertices move_from occupant)
        move_to v
    vertex_index :=
      Function.update (Function.update s.vertex_index v move_to)
        occupant move_from
    bucket_index := Function.update bucket1 k (move_to + 1) }

/-- Claim C6: `iscc_fs_decrease_v_in_sort` preserves the sort-index
invariant `sorted_vertices[vertex_index[w]] = w`, decrements the count of
`v` from `k` to `k-1`, performs the cursor retarget (setting
`bucket_index[k-1]` to `cursor+1` when bucket `k` starts at or before the
cursor), and never moves a vertex at or before the cursor.  The hypotheses
are the call-site preconditions: the invariant holds on `[0,n)`,
`vertex_index` maps into `[0,n)`, `sorted_vertices` is injective there
(it is a permutation), the moved vertex sits strictly after the cursor
(each call site checks `sorted_v < vertex_index[...]`), the front of its
bucket is at or before its slot, and its count is positive. -/
theorem claim_C6 (n : Nat) (s : iscc_fs_SortState) (v cursor : Nat)
    (hn : v < n)
    (hvi : ∀ w, w < n → s.sorted_vertices (s.vertex_index w) = w)
    (hvilt : ∀ w, w < n → s.vertex_index w < n)
    (hinj : ∀ p q, p < n → q < n →
      s.sorted_vertices p = s.sorted_vertices q → p = q)
    (hcur : cursor < s.vertex_index v)
    (hbk : s.bucket_index (s.inwards_count v) ≤ s.vertex_index v)
    (hk : 0 < s.inwards_count v) :
    (∀ w, w < n →
      (iscc_fs_decrease_v_in_sort v cursor s).sorted_vertices
        ((iscc_fs_decrease_v_in_sort v cursor s).vertex_index w) = w) ∧
    (iscc_fs_decrease_v_in_sort v cursor s).inwards_count v
      = s.inwards_count v - 1 ∧
    (s.bucket_index (s.inwards_count v) ≤ cursor →
      (iscc_fs_decrease_v_in_sort v cursor s).bucket_index
        (s.inwards_count v - 1) = cursor + 1) ∧
    (∀ p, p ≤ cursor →
      (iscc_fs_decrease_v_in_sort v cursor s).sorted_vertices p
        = s.sorted_vertices p) := by
  set p := s.vertex_index v with hp
  set k := s.inwards_count v with hkdef
  set q : Nat := if (s.bucket_index k ≤ cursor : Bool) then cursor + 1
    else s.bucket_index k with hq
  have hqle : q ≤ s.vertex_index v := by
    rw [hq]
    by_cases hc : s.bucket_index k ≤ cursor
    · simp only [decide_eq_true_eq, if_pos hc]; omega
    · simp only [decide_eq_true_eq, if_neg hc]; exact hbk
  have hqcur : cursor < q := by
    rw [hq]
    by_cases hc : s.bucket_index k ≤ cursor
    · simp only [decide_eq_true_eq, if_pos hc]; omega
    · simp only [decide_eq_true_eq, if_neg hc]; omega
  have hqn : q < n := lt_of_le_of_lt hqle (hvilt v hn)
  have hpn : p < n := hvilt v hn
  have hsp : s.sorted_vertices p = v := hvi v hn
  set o := s.sorted_vertices q with ho
  have hdec : iscc_fs_decrease_v_in_sort v cursor s =
      { inwards_count := Function.update s.inwards_count v (k - 1)
        sorted_vertices :=
          Function.update (Function.update s.sorted_vertices p o) q v
        vertex_index :=
          Function.update (Function.update s.vertex_index v q) o p
        bucket_index := Function.update
          (if (s.bucket_index k ≤ cursor : Bool) then
            Function.update s.bucket_index (k - 1) q
          else s.bucket_index) k (q + 1) } := by
    rw [iscc_fs_decrease_v_in_sort]
  refine ⟨?_, ?_, ?_, ?_⟩
  · intro w hw
    rw [hdec]
    simp only
    by_cases hwo : w = o
    · subst hwo
      rw [Function.update_same]
      by_cases hpq : p = q
      · rw [hpq, Function.update_same, ho, ← hpq, hsp]
      · rw [Function.update_noteq hpq, Function.update_same]
    · by_cases hwv : w = v
      · subst hwv
        rw [Function.update_noteq hwo, Function.update_same,
          Function.update_same]
      · have hvw : s.vertex_index w ≠ p := by
          intro hh
          apply hwv
          rw [← hvi w hw, hh]
          exact hsp
        have hvq : s.vertex_index w ≠ q := by
          intro hh
          apply hwo
          rw [← hvi w hw, hh]
        rw [Function.update_noteq hwo, Function.update_noteq hwv,
          Function.update_noteq hvq, Function.update_noteq hvw]
        exact hvi w hw
  · rw [hdec]
    simp only
    rw [Function.update_same]
  · intro hc
    rw [hdec]
    simp only
    have hkk : k - 1 ≠ k := by omega
    rw [Function.update_noteq hkk]
    rw [if_pos (by simpa using hc), Function.update_same, hq,
      if_pos (by simpa using hc)]
  · intro pp hpp
    rw [hdec]
    simp only
    rw [Function.update_noteq (by omega), Function.update_noteq (by omega)]

/-- Witness for claim C6: two vertices sorted by in-degree `0, 1`, cursor at
position `0`, decrementing vertex `1` of count `1`. -/
theorem claim_C6_witness :
    ((iscc_fs_decrease_v_in_sort 1 0
        ⟨fun w => w, fun i => i, fun w => w, fun k => k⟩).sorted_vertices
      ((iscc_fs_decrease_v_in_sort 1 0
        ⟨fun w => w, fun i => i, fun w => w, fun k => k⟩).vertex_index 0) = 0) ∧
    ((iscc_fs_decrease_v_in_sort 1 0
        ⟨fun w => w, fun i => i, fun w => w, fun k => k⟩).inwards_count 1 = 0) ∧
    ((iscc_fs_decrease_v_in_sort 1 0
        ⟨fun w => w, fun i => i, fun w => w, fun k => k⟩).sorted_vertices 0 = 0) := by
  have h := claim_C6 2 ⟨fun w => w, fun i => i, fun w => w, fun k => k⟩ 1 0
    (by decide) (fun w _ => rfl) (fun w hw => hw) (fun _ _ _ _ hh => hh)
    (by decide) (by decide) (by decide)
  exact ⟨h.1 0 (by decide), h.2.1, h.2.2.2 0 (by decide)⟩

-- ## The six seed-selection algorithms

/-- Joint state of an inwards scan: the marks scan state plus the live sort
index. -/
structure iscc_fs_UpdState where
  scan : iscc_fs_ScanState
  sort : iscc_fs_SortState

/-- The decrement loop body shared by the updating methods: decrease every
stream vertex that is still a candidate — unmarked, strictly after the
cursor in `sorted_vertices`, and with at least one out-arc. -/
def iscc_fs_decrease_pass (g : iscc_Digraph) (cursor : Nat)
    (marks : Nat → Bool) (bs : List Nat)
    (sort : iscc_fs_SortState) : iscc_fs_SortState :=
  bs.foldl (fun so b =>
    if ¬ marks b ∧ cursor < so.vertex_index b ∧ iscc_row g b ≠ [] then
      iscc_fs_decrease_v_in_sort b cursor so
    else so) sort

/-- One cursor position of `iscc_findseeds_inwards`: the scanned vertex is
read from the (possibly mutated) `sorted_vertices`; after a successful
`try_seed`, when `updating`, every `b ∈ out(a)` for `a ∈ out(v)` that is
still a candidate is decreased. -/
def iscc_findseeds_inwards_step (g : iscc_Digraph) (updating : Bool)
    (st : iscc_fs_UpdState) (cursor : Nat) : iscc_fs_UpdState :=
  if st.scan.err ≠ none then st
  else
    let v := st.sort.sorted_vertices cursor
    let r := iscc_fs_try_seed g v st.scan
    if r.2 ∧ updating then
      { scan := r.1
        sort := iscc_fs_decrease_pass g cursor r.1.marks
          ((iscc_row g v).flatMap (iscc_row g)) st.sort }
    else { st with scan := r.1 }

def iscc_findseeds_inwards (g : iscc_Digraph) (updating : Bool)
    (capacity : Nat) : Except scc_ErrorCode iscc_SeedResult :=
  let st := (List.range g.vertices).foldl
    (iscc_findseeds_inwards_step g updating)
    ⟨⟨fun _ => false, ⟨capacity, 0, []⟩, none⟩, iscc_fs_sort_by_inwards g⟩
  match st.scan.err with
  | some e => .error e
  | none => .ok st.scan.res

/-- The accept-path decrement pass of `iscc_findseeds_inwards_alt`: each
out-neighbor `a` of the seed is expanded only under the additional guard
`cursor < vertex_index[a]`, evaluated on the current sort state. -/
def iscc_fs_alt_accept_pass (g : iscc_Digraph) (cursor : Nat)
    (marks : Nat → Bool) (v : Nat)
    (sort : iscc_fs_SortState) : iscc_fs_SortState :=
  (iscc_row g v).foldl (fun so a =>
    if cursor < so.vertex_index a then
      iscc_fs_decrease_pass g cursor marks (iscc_row g a) so
    else so) sort

/-- One cursor position of `iscc_findseeds_inwards_alt` (always updating):
the decrement also fires on the skipped-and-unmarked path, over the direct
out-neighbors of the skipped vertex. -/
def iscc_findseeds_inwards_alt_step (g : iscc_Digraph)
    (st : iscc_fs_UpdState) (cursor : Nat) : iscc_fs_UpdState :=
  if st.scan.err ≠ none then st
  else
    let v := st.sort.sorted_vertices cursor
    let r := iscc_fs_try_seed g v st.scan
    if r.2 then
      { scan := r.1
        sort := iscc_fs_alt_accept_pass g cursor r.1.marks v st.sort }
    else if ¬ r.1.marks v then
      { scan := r.1
        sort := iscc_fs_decrease_pass g cursor r.1.marks (iscc_row g v) st.sort }
    else { st with scan := r.1 }

def iscc_findseeds_inwards_alt (g : iscc_Digraph) (capacity : Nat) :
    Except scc_ErrorCode iscc_SeedResult :=
  let st := (List.range g.vertices).foldl
    (iscc_findseeds_inwards_alt_step g)
    ⟨⟨fun _ => false, ⟨capacity, 0, []⟩, none⟩, iscc_fs_sort_by_inwards g⟩
  match st.scan.err with
  | some e => .error e
  | none => .ok st.scan.res

def iscc_findseeds_lexical (g : iscc_Digraph) (capacity : Nat) :
    Except scc_ErrorCode iscc_SeedResult :=
  let st := (List.range g.vertices).foldl
    (fun st v => (iscc_fs_try_seed g v st).1)
    ⟨fun _ => false, ⟨capacity, 0, []⟩, none⟩
  match st.err with
  | some e => .error e
  | none => .ok st.res

/-- `iscc_fs_exclusion_graph`:
`X = union_and_delete([nng, nng · nngᵀ (force_loops)], tails_to_keep)` where
a tail is kept iff it has at least one out-arc in the NNG
(`not_excluded[v] = (tail_ptr[v] != tail_ptr[v+1])`).  The caller's
`FIX THIS` block passes the kept tails as an index list with the
`len == 0` sentinel meaning "all kept" (spec §9); both encodings denote
this keep predicate. -/
def iscc_fs_exclusion_graph (g : iscc_Digraph) : iscc_Digraph :=
  iscc_digraph_union_and_delete
    [g, iscc_adjacency_product g (iscc_digraph_transpose g) true false]
    (fun v => decide (iscc_row g v ≠ []))

/-- Scan state of the exclusion methods: `not_excluded` replaces `marks`. -/
structure iscc_ex_ScanState where
  not_excluded : Nat → Bool
  res : iscc_SeedResult
  err : Option scc_ErrorCode

structure iscc_ex_UpdState where
  scan : iscc_ex_ScanState
  sort : iscc_fs_SortState

/-- First pass of the updating exclusion accept path: walk the seed's row
collecting each neighbor that was still non-excluded (the row is reused as
a scratch area in the source) while excluding every neighbor. -/
def iscc_collect_exclude (row : List Nat) (ne : Nat → Bool) :
    List Nat × (Nat → Bool) :=
  row.foldl (fun acc w =>
    (if acc.2 w then acc.1 ++ [w] else acc.1, Function.update acc.2 w false))
    ([], ne)

/-- One cursor position of `iscc_findseeds_exclusion`: a vertex still
`not_excluded` becomes a seed; the seed and all of `X.out(seed)` are then
excluded; in the updating variant a second pass decreases the count of the
still-non-excluded neighbors of the previously-non-excluded neighbors. -/
def iscc_findseeds_exclusion_step (g x : iscc_Digraph) (updating : Bool)
    (st : iscc_ex_UpdState) (cursor : Nat) : iscc_ex_UpdState :=
  if st.scan.err ≠ none then st
  else if st.scan.not_excluded (st.sort.sorted_vertices cursor) then
    match iscc_fs_add_seed (st.sort.sorted_vertices cursor) st.scan.res with
    | .error e => { st with scan := { st.scan with err := some e } }
    | .ok r =>
      if updating = false then
        { scan := ⟨(iscc_row x (st.sort.sorted_vertices cursor)).foldl
            (fun ne w => Function.update ne w false)
            (Function.update st.scan.not_excluded
              (st.sort.sorted_vertices cursor) false), r, none⟩
          sort := st.sort }
      else
        { scan := ⟨(iscc_collect_exclude
              (iscc_row x (st.sort.sorted_vertices cursor))
              (Function.update st.scan.not_excluded
                (st.sort.sorted_vertices cursor) false)).2, r, none⟩
          sort := ((iscc_collect_exclude
              (iscc_row x (st.sort.sorted_vertices cursor))
              (Function.update st.scan.not_excluded
                (st.sort.sorted_vertices cursor) false)).1).foldl
            (fun so c2 =>
              (iscc_row x c2).foldl (fun so2 w =>
                if (iscc_collect_exclude
                    (iscc_row x (st.sort.sorted_vertices cursor))
                    (Function.update st.scan.not_excluded
                      (st.sort.sorted_vertices cursor) false)).2 w then
                  iscc_fs_decrease_v_in_sort w cursor so2
                else so2) so) st.sort }
  else st

def iscc_findseeds_exclusion (g : iscc_Digraph) (updating : Bool)
    (capacity : Nat) : Except scc_ErrorCode iscc_SeedResult :=
  let x := iscc_fs_exclusion_graph g
  let st := (List.range g.vertices).foldl
    (iscc_findseeds_exclusion_step g x updating)
    ⟨⟨fun v => decide (iscc_row g v ≠ []), ⟨capacity, 0, []⟩, none⟩,
     iscc_fs_sort_by_inwards x⟩
  match st.scan.err with
  | some e => .error e
  | none => .ok st.scan.res

/-- The `iscc_find_seeds` dispatch on the seed method, before the final
shrink. -/
def iscc_find_seeds_run (g : iscc_Digraph) (seed_method : scc_SeedMethod)
    (capacity : Nat) : Except scc_ErrorCode iscc_SeedResult :=
  match seed_method with
  | .SCC_SM_LEXICAL => iscc_findseeds_lexical g capacity
  | .SCC_SM_INWARDS_ORDER => iscc_findseeds_inwards g false capacity
  | .SCC_SM_INWARDS_UPDATING => iscc_findseeds_inwards g true capacity
  | .SCC_SM_INWARDS_ALT_UPDATING => iscc_findseeds_inwards_alt g capacity
  | .SCC_SM_EXCLUSION_ORDER => iscc_findseeds_exclusion g false capacity
  | .SCC_SM_EXCLUSION_UPDATING => iscc_findseeds_exclusion g true capacity

/-- `iscc_find_seeds`: dispatch, then on success with `0 < count < capacity`
shrink the seed array to the exact count.  The `realloc` outcome is the
explicit parameter `realloc_ok`; its failure leaves count, contents and
capacity unchanged and the call still succeeds. -/
def iscc_find_seeds (g : iscc_Digraph) (seed_method : scc_SeedMethod)
    (capacity : Nat) (realloc_ok : Bool) :
    Except scc_ErrorCode iscc_SeedResult :=
  match iscc_find_seeds_run g seed_method capacity with
  | .error e => .error e
  | .ok r =>
    if r.count < r.capacity ∧ 0 < r.count ∧ realloc_ok then
      .ok { r with capacity := r.count }
    else .ok r

-- ## Claim C1: seed lists of all six methods

theorem iscc_foldl_inv {σ : Type} (P : σ → Prop) (f : σ → Nat → σ)
    (hf : ∀ st c, P st → P (f st c)) :
    ∀ (l : List Nat) (st : σ), P st → P (l.foldl f st) := by
  intro l
  induction l with
  | nil => intro st h; exact h
  | cons c l ih => intro st h; exact ih _ (hf st c h)

theorem iscc_findseeds_inwards_step_inv (g : iscc_Digraph) (updating : Bool)
    (st : iscc_fs_UpdState) (cursor : Nat)
    (h : iscc_fs_inv g st.scan.marks st.scan.res) :
    iscc_fs_inv g
      (iscc_findseeds_inwards_step g updating st cursor).scan.marks
      (iscc_findseeds_inwards_step g updating st cursor).scan.res := by
  rw [iscc_findseeds_inwards_step]
  by_cases he : st.scan.err ≠ none
  · rw [if_pos he]; exact h
  · rw [if_neg he]
    have hts := iscc_fs_try_seed_inv g (st.sort.sorted_vertices cursor)
      st.scan h
    by_cases hacc : (iscc_fs_try_seed g (st.sort.sorted_vertices cursor)
        st.scan).2 ∧ updating = true
    · simp only [if_pos hacc]; exact hts
    · simp only [if_neg hacc]; exact hts

theorem iscc_findseeds_inwards_alt_step_inv (g : iscc_Digraph)
    (st : iscc_fs_UpdState) (cursor : Nat)
    (h : iscc_fs_inv g st.scan.marks st.scan.res) :
    iscc_fs_inv g
      (iscc_findseeds_inwards_alt_step g st cursor).scan.marks
      (iscc_findseeds_inwards_alt_step g st cursor).scan.res := by
  rw [iscc_findseeds_inwards_alt_step]
  by_cases he : st.scan.err ≠ none
  · rw [if_pos he]; exact h
  · rw [if_neg he]
    have hts := iscc_fs_try_seed_inv g (st.sort.sorted_vertices cursor)
      st.scan h
    by_cases hacc : (iscc_fs_try_seed g (st.sort.sorted_vertices cursor)
        st.scan).2 = true
    · simp only [if_pos hacc]; exact hts
    · simp only [if_neg hacc]
      by_cases hm : ¬ (iscc_fs_try_seed g (st.sort.sorted_vertices cursor)
          st.scan).1.marks (st.sort.sorted_vertices cursor) = true
      · simp only [if_pos hm]; exact hts
      · simp only [if_neg hm]; exact hts

theorem iscc_fs_inv_init (g : iscc_Digraph) (cap : Nat) :
    iscc_fs_inv g (fun _ => false) ⟨cap, 0, []⟩ := by
  refine ⟨by simp, by simp, by simp, by simp⟩

theorem iscc_foldl_update_false (l : List Nat) (m : Nat → Bool) (x : Nat) :
    l.foldl (fun mm y => Function.update mm y false) m x
      = (m x && !(decide (x ∈ l))) := by
  induction l generalizing m with
  | nil => simp
  | cons y l ih =>
    rw [List.foldl_cons, ih]
    by_cases hxy : x = y
    · subst hxy; simp
    · simp [Function.update_noteq hxy, hxy]

theorem iscc_collect_exclude_snd_aux (row : List Nat) :
    ∀ (acc : List Nat) (ne : Nat → Bool) (x : Nat),
    (row.foldl (fun (acc : List Nat × (Nat → Bool)) w =>
        (if acc.2 w then acc.1 ++ [w] else acc.1,
         Function.update acc.2 w false)) (acc, ne)).2 x
      = (ne x && !(decide (x ∈ row))) := by
  induction row with
  | nil => intro acc ne x; simp
  | cons w row ih =>
    intro acc ne x
    rw [List.foldl_cons]
    refine (ih _ _ x).trans ?_
    by_cases hxw : x = w
    · subst hxw; simp
    · simp [Function.update_noteq hxw, hxw]

theorem iscc_collect_exclude_snd (row : List Nat) (ne : Nat → Bool)
    (x : Nat) :
    (iscc_collect_exclude row ne).2 x = (ne x && !(decide (x ∈ row))) :=
  iscc_collect_exclude_snd_aux row [] ne x

theorem iscc_row_out_of_range (g : iscc_Digraph)
    (hg : iscc_digraph_is_valid g = true) (v : Nat)
    (hv : g.vertices ≤ v) : iscc_row g v = [] := by
  obtain ⟨-, hlen, -, -, -, -, -⟩ := iscc_valid_fields g hg
  have h2 : g.tail_ptr.getD (v + 1) 0 = 0 :=
    List.getD_eq_default _ _ (by omega)
  rw [iscc_row, h2]
  simp

theorem iscc_exclusion_graph_row_mem (g : iscc_Digraph) (u w : Nat)
    (hun : u < g.vertices) (hu : iscc_row g u ≠ []) :
    w ∈ iscc_row (iscc_fs_exclusion_graph g) u
      ↔ (w ≠ u ∧ (w ∈ iscc_row g u ∨ w ∈ iscc_row
          (iscc_adjacency_product g (iscc_digraph_transpose g) true false)
          u)) := by
  have h1 : iscc_row (iscc_fs_exclusion_graph g) u
      = iscc_union_and_delete_row
          [g, iscc_adjacency_product g (iscc_digraph_transpose g) true false]
          (fun v => decide (iscc_row g v ≠ [])) u := by
    show iscc_row (iscc_fromRows ((List.range g.vertices).map _)) u = _
    exact iscc_op_row _ _ _ hun
  rw [h1, iscc_union_and_delete_row, if_pos (by simpa using hu),
    iscc_mark_emit_mem]
  simp only [List.flatMap_cons, List.flatMap_nil, List.append_nil,
    List.mem_append, List.mem_singleton]

theorem iscc_product_force_row_mem (g : iscc_Digraph) (u w : Nat)
    (hun : u < g.vertices) :
    w ∈ iscc_row
        (iscc_adjacency_product g (iscc_digraph_transpose g) true false) u
      ↔ (w ≠ u ∧ (w ∈ iscc_row (iscc_digraph_transpose g) u ∨
          ∃ a, a ∈ iscc_row g u ∧ a ≠ u ∧
            w ∈ iscc_row (iscc_digraph_transpose g) a)) := by
  rw [show iscc_row
        (iscc_adjacency_product g (iscc_digraph_transpose g) true false) u
      = iscc_adjacency_product_row g (iscc_digraph_transpose g) true false u
      from iscc_op_row _ _ _ hun]
  rw [iscc_adjacency_product_row, iscc_mark_emit_mem]
  simp only [List.mem_singleton, if_true, List.mem_append, List.mem_flatMap]
  constructor
  · rintro ⟨hwu, h | ⟨a, ha, hwa⟩⟩
    · exact ⟨hwu, Or.inl h⟩
    · by_cases hau : a = u ∧ (true || false : Bool) = true
      · rw [if_pos hau] at hwa; simp at hwa
      · rw [if_neg hau] at hwa
        refine ⟨hwu, Or.inr ⟨a, ha, fun hh => hau ⟨hh, by simp⟩, hwa⟩⟩
  · rintro ⟨hwu, h | ⟨a, ha, hau, hwa⟩⟩
    · exact ⟨hwu, Or.inl h⟩
    · refine ⟨hwu, Or.inr ⟨a, ha, ?_⟩⟩
      rw [if_neg (fun hh : a = u ∧ _ => hau hh.1)]
      exact hwa

theorem iscc_transpose_row_mem (g : iscc_Digraph) (c w : Nat)
    (hc : c < g.vertices) :
    w ∈ iscc_row (iscc_digraph_transpose g) c
      ↔ (w < g.vertices ∧ c ∈ iscc_row g w) := by
  rw [iscc_transpose_row_spec g c hc, iscc_transpose_row, List.mem_flatMap]
  constructor
  · rintro ⟨v, hv, hw⟩
    rcases List.mem_replicate.mp hw with ⟨hcnt, rfl⟩
    have hvn : w < g.vertices := List.mem_range.mp (List.mem_reverse.mp hv)
    refine ⟨hvn, ?_⟩
    by_contra hcm
    exact hcnt (List.count_eq_zero.mpr hcm)
  · rintro ⟨hwn, hcm⟩
    refine ⟨w, List.mem_reverse.mpr (List.mem_range.mpr hwn), ?_⟩
    exact List.mem_replicate.mpr
      ⟨fun h0 => (List.count_eq_zero.mp h0) hcm, rfl⟩

/-- The exclusion-graph property behind claim C1: whenever the closed
neighborhoods of `u` and `w` intersect, `u` has out-arcs and `u ≠ w`, the
exclusion graph carries the arc `u → w`. -/
theorem iscc_exclusion_graph_key (g : iscc_Digraph)
    (hg : iscc_digraph_is_valid g = true) (u w y : Nat)
    (hu : iscc_row g u ≠ []) (hwn : w < g.vertices) (huw : u ≠ w)
    (hyu : y ∈ iscc_closed_nbhd g u) (hyw : y ∈ iscc_closed_nbhd g w) :
    w ∈ iscc_row (iscc_fs_exclusion_graph g) u := by
  have hun : u < g.vertices := by
    by_contra hcon
    exact hu (iscc_row_out_of_range g hg u (by omega))
  rw [iscc_exclusion_graph_row_mem g u w hun hu]
  refine ⟨Ne.symm huw, ?_⟩
  by_cases hyweq : y = w
  · subst hyweq
    rcases List.mem_cons.mp hyu with h | h
    · exact absurd h.symm huw
    · exact Or.inl h
  · have hyrow_w : y ∈ iscc_row g w := by
      rcases List.mem_cons.mp hyw with h | h
      · exact absurd h hyweq
      · exact h
    by_cases hyueq : y = u
    · right
      rw [iscc_product_force_row_mem g u w hun]
      refine ⟨Ne.symm huw, Or.inl ?_⟩
      rw [iscc_transpose_row_mem g u w hun]
      exact ⟨hwn, hyueq ▸ hyrow_w⟩
    · have hyrow_u : y ∈ iscc_row g u := by
        rcases List.mem_cons.mp hyu with h | h
        · exact absurd h hyueq
        · exact h
      have hyn : y < g.vertices := iscc_valid_row_mem g hg u y hyrow_u
      right
      rw [iscc_product_force_row_mem g u w hun]
      refine ⟨Ne.symm huw, Or.inr ⟨y, hyrow_u, hyueq, ?_⟩⟩
      rw [iscc_transpose_row_mem g y w hyn]
      exact ⟨hwn, hyrow_w⟩

/-- The exclusion-scan invariant: non-excluded vertices have out-arcs, every
seed has out-arcs, every seed and all its exclusion-graph out-neighbors are
excluded, seeds have pairwise-disjoint closed neighborhoods in the NNG, and
`count` tracks the seed-list length. -/
def iscc_ex_inv (g x : iscc_Digraph) (ne : Nat → Bool)
    (r : iscc_SeedResult) : Prop :=
  (∀ v, ne v = true → iscc_row g v ≠ []) ∧
  (∀ s ∈ r.seeds, iscc_row g s ≠ []) ∧
  (∀ s ∈ r.seeds, ne s = false ∧ ∀ w ∈ iscc_row x s, ne w = false) ∧
  r.seeds.Pairwise
    (fun a b => ∀ y ∈ iscc_closed_nbhd g a, y ∉ iscc_closed_nbhd g b) ∧
  r.count = r.seeds.length

theorem iscc_ex_inv_accept (g x : iscc_Digraph)
    (hg : iscc_digraph_is_valid g = true)
    (hkey : ∀ u w y, iscc_row g u ≠ [] → w < g.vertices → u ≠ w →
      y ∈ iscc_closed_nbhd g u → y ∈ iscc_closed_nbhd g w →
      w ∈ iscc_row x u)
    (ne : Nat → Bool) (r0 r : iscc_SeedResult) (v : Nat)
    (hnev : ne v = true)
    (h : iscc_ex_inv g x ne r0)
    (hseeds : r.seeds = r0.seeds ++ [v]) (hcount : r.count = r0.count + 1)
    (ne' : Nat → Bool)
    (hne' : ∀ w, ne' w
      = (Function.update ne v false w && !(decide (w ∈ iscc_row x v)))) :
    iscc_ex_inv g x ne' r := by
  obtain ⟨h1, h2, h3, h4, h5⟩ := h
  have hle : ∀ w, ne' w = true → ne w = true := by
    intro w hw
    rw [hne'] at hw
    simp only [Bool.and_eq_true] at hw
    obtain ⟨hw1, -⟩ := hw
    by_cases hwv : w = v
    · rw [hwv, Function.update_same] at hw1
      exact absurd hw1 (by simp)
    · rwa [Function.update_noteq hwv] at hw1
  have hfalse : ∀ w, ne w = false → ne' w = false := by
    intro w hw
    rw [hne']
    by_cases hwv : w = v
    · rw [hwv, Function.update_same]; rfl
    · rw [Function.update_noteq hwv, hw]; rfl
  have hv' : ne' v = false := by
    rw [hne', Function.update_same]; rfl
  have hrow' : ∀ w ∈ iscc_row x v, ne' w = false := by
    intro w hwmem
    rw [hne']
    simp [hwmem]
  refine ⟨?_, ?_, ?_, ?_, ?_⟩
  · intro w hw
    exact h1 w (hle w hw)
  · intro s hs
    rw [hseeds] at hs
    rcases List.mem_append.mp hs with hs | hs
    · exact h2 s hs
    · rw [List.mem_singleton.mp hs]
      exact h1 v hnev
  · intro s hs
    rw [hseeds] at hs
    rcases List.mem_append.mp hs with hs | hs
    · exact ⟨hfalse s (h3 s hs).1,
        fun w hw => hfalse w ((h3 s hs).2 w hw)⟩
    · rw [List.mem_singleton.mp hs]
      exact ⟨hv', hrow'⟩
  · rw [hseeds]
    apply List.pairwise_append.mpr
    refine ⟨h4, by simp, ?_⟩
    intro a ha b hb y hya hyb
    rw [List.mem_singleton.mp hb] at hyb
    have hrowa := h2 a ha
    have hane : ne a = false := (h3 a ha).1
    have hav : a ≠ v := by
      intro hh
      rw [hh, hnev] at hane
      exact absurd hane (by simp)
    have hvn : v < g.vertices := by
      by_contra hcon
      exact (h1 v hnev) (iscc_row_out_of_range g hg v (by omega))
    have hmem := hkey a v y hrowa hvn hav hya hyb
    have hfv := (h3 a ha).2 v hmem
    rw [hfv] at hnev
    exact absurd hnev (by simp)
  · rw [hcount, hseeds, h5]
    simp

theorem iscc_findseeds_exclusion_step_inv (g x : iscc_Digraph)
    (hg : iscc_digraph_is_valid g = true)
    (hkey : ∀ u w y, iscc_row g u ≠ [] → w < g.vertices → u ≠ w →
      y ∈ iscc_closed_nbhd g u → y ∈ iscc_closed_nbhd g w →
      w ∈ iscc_row x u)
    (updating : Bool) (st : iscc_ex_UpdState) (cursor : Nat)
    (h : iscc_ex_inv g x st.scan.not_excluded st.scan.res) :
    iscc_ex_inv g x
      (iscc_findseeds_exclusion_step g x updating st cursor).scan.not_excluded
      (iscc_findseeds_exclusion_step g x updating st cursor).scan.res := by
  rw [iscc_findseeds_exclusion_step]
  by_cases he : st.scan.err ≠ none
  · rw [if_pos he]; exact h
  · rw [if_neg he]
    by_cases hne : st.scan.not_excluded (st.sort.sorted_vertices cursor)
        = true
    · simp only [hne, if_true]
      rcases hadd : iscc_fs_add_seed (st.sort.sorted_vertices cursor)
          st.scan.res with e | r
      · exact h
      · dsimp only
        obtain ⟨hseeds, hcount⟩ := iscc_fs_add_seed_ok _ _ _ hadd
        cases updating with
        | false =>
          rw [if_pos rfl]
          exact iscc_ex_inv_accept g x hg hkey st.scan.not_excluded
            st.scan.res r _ hne h hseeds hcount _
            (fun w => iscc_foldl_update_false _ _ w)
        | true =>
          rw [if_neg (by decide)]
          exact iscc_ex_inv_accept g x hg hkey st.scan.not_excluded
            st.scan.res r _ hne h hseeds hcount _
            (fun w => iscc_collect_exclude_snd _ _ w)
    · simp only [hne, if_false]
      exact h

theorem iscc_ex_inv_init (g x : iscc_Digraph) (cap : Nat) :
    iscc_ex_inv g x (fun v => decide (iscc_row g v ≠ []))
      ⟨cap, 0, []⟩ := by
  refine ⟨?_, by simp, by simp, by simp, by simp⟩
  intro v hv
  simpa using hv

theorem iscc_fs_finalize (err : Option scc_ErrorCode)
    (res r : iscc_SeedResult)
    (h : (match err with
          | some e => (Except.error e : Except scc_ErrorCode iscc_SeedResult)
          | none => Except.ok res) = Except.ok r) : res = r := by
  cases err with
  | none => simpa using h
  | some e => simp at h

/-- The shared outcome of all six methods: on success the seed list contains
only vertices with out-arcs, closed neighborhoods of seeds are pairwise
disjoint, and `count` equals the list length. -/
theorem iscc_find_seeds_run_spec (g : iscc_Digraph)
    (hg : iscc_digraph_is_valid g = true) (m : scc_SeedMethod) (cap : Nat)
    (r : iscc_SeedResult)
    (hr : iscc_find_seeds_run g m cap = .ok r) :
    (∀ s ∈ r.seeds, iscc_row g s ≠ []) ∧
    r.seeds.Pairwise
      (fun a b => ∀ y ∈ iscc_closed_nbhd g a, y ∉ iscc_closed_nbhd g b) ∧
    r.count = r.seeds.length := by
  have hkey : ∀ u w y, iscc_row g u ≠ [] → w < g.vertices → u ≠ w →
      y ∈ iscc_closed_nbhd g u → y ∈ iscc_closed_nbhd g w →
      w ∈ iscc_row (iscc_fs_exclusion_graph g) u :=
    fun u w y h1 h2 h3 h4 h5 => iscc_exclusion_graph_key g hg u w y h1 h2 h3 h4 h5
  cases m with
  | SCC_SM_LEXICAL =>
    rw [iscc_find_seeds_run, iscc_findseeds_lexical] at hr
    have hinv := iscc_foldl_inv (fun st => iscc_fs_inv g st.marks st.res)
      (fun st v => (iscc_fs_try_seed g v st).1)
      (fun st c hh => iscc_fs_try_seed_inv g c st hh)
      (List.range g.vertices)
      ⟨fun _ => false, ⟨cap, 0, []⟩, none⟩ (iscc_fs_inv_init g cap)
    have hres := iscc_fs_finalize _ _ _ hr
    obtain ⟨h1, -, h3, h4⟩ := hinv
    rw [← hres]
    exact ⟨h1, h3, h4⟩
  | SCC_SM_INWARDS_ORDER =>
    rw [iscc_find_seeds_run, iscc_findseeds_inwards] at hr
    have hinv := iscc_foldl_inv
      (fun st => iscc_fs_inv g st.scan.marks st.scan.res)
      (iscc_findseeds_inwards_step g false)
      (fun st c hh => iscc_findseeds_inwards_step_inv g false st c hh)
      (List.range g.vertices)
      ⟨⟨fun _ => false, ⟨cap, 0, []⟩, none⟩, iscc_fs_sort_by_inwards g⟩
      (iscc_fs_inv_init g cap)
    have hres := iscc_fs_finalize _ _ _ hr
    obtain ⟨h1, -, h3, h4⟩ := hinv
    rw [← hres]
    exact ⟨h1, h3, h4⟩
  | SCC_SM_INWARDS_UPDATING =>
    rw [iscc_find_seeds_run, iscc_findseeds_inwards] at hr
    have hinv := iscc_foldl_inv
      (fun st => iscc_fs_inv g st.scan.marks st.scan.res)
      (iscc_findseeds_inwards_step g true)
      (fun st c hh => iscc_findseeds_inwards_step_inv g true st c hh)
      (List.range g.vertices)
      ⟨⟨fun _ => false, ⟨cap, 0, []⟩, none⟩, iscc_fs_sort_by_inwards g⟩
      (iscc_fs_inv_init g cap)
    have hres := iscc_fs_finalize _ _ _ hr
    obtain ⟨h1, -, h3, h4⟩ := hinv
    rw [← hres]
    exact ⟨h1, h3, h4⟩
  | SCC_SM_INWARDS_ALT_UPDATING =>
    rw [iscc_find_seeds_run, iscc_findseeds_inwards_alt] at hr
    have hinv := iscc_foldl_inv
      (fun st => iscc_fs_inv g st.scan.marks st.scan.res)
      (iscc_findseeds_inwards_alt_step g)
      (fun st c hh => iscc_findseeds_inwards_alt_step_inv g st c hh)
      (List.range g.vertices)
      ⟨⟨fun _ => false, ⟨cap, 0, []⟩, none⟩, iscc_fs_sort_by_inwards g⟩
      (iscc_fs_inv_init g cap)
    have hres := iscc_fs_finalize _ _ _ hr
    obtain ⟨h1, -, h3, h4⟩ := hinv
    rw [← hres]
    exact ⟨h1, h3, h4⟩
  | SCC_SM_EXCLUSION_ORDER =>
    rw [iscc_find_seeds_run, iscc_findseeds_exclusion] at hr
    have hinv := iscc_foldl_inv
      (fun st => iscc_ex_inv g (iscc_fs_exclusion_graph g)
        st.scan.not_excluded st.scan.res)
      (iscc_findseeds_exclusion_step g (iscc_fs_exclusion_graph g) false)
      (fun st c hh => iscc_findseeds_exclusion_step_inv g
        (iscc_fs_exclusion_graph g) hg hkey false st c hh)
      (List.range g.vertices)
      ⟨⟨fun v => decide (iscc_row g v ≠ []), ⟨cap, 0, []⟩, none⟩,
       iscc_fs_sort_by_inwards (iscc_fs_exclusion_graph g)⟩
      (iscc_ex_inv_init g (iscc_fs_exclusion_graph g) cap)
    have hres := iscc_fs_finalize _ _ _ hr
    obtain ⟨-, h2, -, h4, h5⟩ := hinv
    rw [← hres]
    exact ⟨h2, h4, h5⟩
  | SCC_SM_EXCLUSION_UPDATING =>
    rw [iscc_find_seeds_run, iscc_findseeds_exclusion] at hr
    have hinv := iscc_foldl_inv
      (fun st => iscc_ex_inv g (iscc_fs_exclusion_graph g)
        st.scan.not_excluded st.scan.res)
      (iscc_findseeds_exclusion_step g (iscc_fs_exclusion_graph g) true)
      (fun st c hh => iscc_findseeds_exclusion_step_inv g
        (iscc_fs_exclusion_graph g) hg hkey true st c hh)
      (List.range g.vertices)
      ⟨⟨fun v => decide (iscc_row g v ≠ []), ⟨cap, 0, []⟩, none⟩,
       iscc_fs_sort_by_inwards (iscc_fs_exclusion_graph g)⟩
      (iscc_ex_inv_init g (iscc_fs_exclusion_graph g) cap)
    have hres := iscc_fs_finalize _ _ _ hr
    obtain ⟨-, h2, -, h4, h5⟩ := hinv
    rw [← hres]
    exact ⟨h2, h4, h5⟩

/-- On success the number of seeds is at most the vertex count: seeds are
pairwise distinct (their closed neighborhoods are disjoint and each contains
its seed) and each lies in `[0, n)` (it has an out-arc). -/
theorem iscc_find_seeds_run_count_le (g : iscc_Digraph)
    (hg : iscc_digraph_is_valid g = true) (m : scc_SeedMethod) (cap : Nat)
    (r : iscc_SeedResult)
    (hr : iscc_find_seeds_run g m cap = .ok r) :
    r.count ≤ g.vertices := by
  obtain ⟨h1, h2, h3⟩ := iscc_find_seeds_run_spec g hg m cap r hr
  rw [h3]
  have hnodup : r.seeds.Nodup := by
    refine List.Pairwise.imp ?_ h2
    intro a b hab hEq
    subst hEq
    exact hab a (List.mem_cons_self _ _) (List.mem_cons_self _ _)
  have hlt : ∀ s ∈ r.seeds, s < g.vertices := by
    intro s hs
    by_contra hcon
    exact (h1 s hs) (iscc_row_out_of_range g hg s (by omega))
  calc r.seeds.length = r.seeds.toFinset.card :=
        (List.toFinset_card_of_nodup hnodup).symm
    _ ≤ (Finset.range g.vertices).card :=
        Finset.card_le_card (fun s hs =>
          Finset.mem_range.mpr (hlt s (List.mem_toFinset.mp hs)))
    _ = g.vertices := Finset.card_range _

/-- Claim C1: for every valid NNG and every seed method, on success the
emitted seed list holds only vertices with at least one out-arc and the
closed out-neighborhoods of the seeds are pairwise disjoint. -/
theorem claim_C1 (g : iscc_Digraph) (hg : iscc_digraph_is_valid g = true)
    (hne : iscc_digraph_is_empty g = false) (m : scc_SeedMethod)
    (cap : Nat) (realloc_ok : Bool) (r : iscc_SeedResult)
    (hr : iscc_find_seeds g m cap realloc_ok = .ok r) :
    (∀ s ∈ r.seeds, iscc_row g s ≠ []) ∧
    r.seeds.Pairwise
      (fun a b => ∀ y ∈ iscc_closed_nbhd g a, y ∉ iscc_closed_nbhd g b) := by
  rw [iscc_find_seeds] at hr
  rcases hrun : iscc_find_seeds_run g m cap with e | r0
  · rw [hrun] at hr; simp at hr
  · rw [hrun] at hr
    dsimp only at hr
    obtain ⟨h1, h2, -⟩ := iscc_find_seeds_run_spec g hg m cap r0 hrun
    by_cases hc : r0.count < r0.capacity ∧ 0 < r0.count ∧ realloc_ok = true
    · rw [if_pos hc] at hr
      have hr2 : r = { r0 with capacity := r0.count } := by
        simpa using hr.symm
      rw [hr2]
      exact ⟨h1, h2⟩
    · rw [if_neg hc] at hr
      have hr2 : r = r0 := by simpa using hr.symm
      rw [hr2]
      exact ⟨h1, h2⟩

/-- Witness for claim C1: method `lexical` on the two-vertex swap digraph
emits the single seed `0`, which has an out-arc. -/
theorem claim_C1_witness : iscc_row iscc_exSwap2 0 ≠ [] :=
  (claim_C1 iscc_exSwap2 (by decide) (by decide) .SCC_SM_LEXICAL 4 true
    ⟨1, 1, [0]⟩ rfl).1 0 (by decide)

/-- Claim C10: when a method succeeds with `0 < count < capacity`, the
shrinking `realloc` is attempted; on success only `capacity` drops to
`count`, on failure the result is returned unchanged — either way the call
returns OK with the same seed count and contents. -/
theorem claim_C10 (g : iscc_Digraph) (m : scc_SeedMethod) (cap : Nat)
    (realloc_ok : Bool) (r : iscc_SeedResult)
    (hok : iscc_find_seeds_run g m cap = .ok r)
    (hpos : 0 < r.count) (hcap : r.count < r.capacity) :
    iscc_find_seeds g m cap realloc_ok
      = .ok { r with
          capacity := if realloc_ok then r.count else r.capacity } := by
  rw [iscc_find_seeds, hok]
  dsimp only
  cases realloc_ok with
  | true => rw [if_pos ⟨hcap, hpos, rfl⟩, if_pos rfl]
  | false =>
    rw [if_neg (by simp), if_neg (by decide)]

/-- Witness for claim C10 on the two-vertex swap digraph with a successful
shrink. -/
theorem claim_C10_witness :
    iscc_find_seeds iscc_exSwap2 .SCC_SM_LEXICAL 4 true
      = .ok { capacity := 1, count := 1, seeds := [0] } := by
  have h := claim_C10 iscc_exSwap2 .SCC_SM_LEXICAL 4 true ⟨4, 1, [0]⟩ rfl
    (by decide) (by decide)
  simpa using h

-- ## The batch NNG clusterer (`nng_batch_clustering.c`)

/-- The external clustering surface touched by `iscc_run_nng_batches`. -/
structure scc_Clustering where
  num_data_points : Nat
  num_clusters : Nat
  cluster_label : Nat → Nat

/-- Mutable state of the batch run: the label array, the `assigned` flags,
`next_cluster_label` and `search_done`. -/
structure iscc_BatchState where
  labels : Nat → Nat
  assigned : Nat → Bool
  next_cluster_label : Nat
  search_done : Bool

/-- Assign one point to the next cluster: set its flag and its label. -/
def iscc_batch_assign (x : Nat) (st : iscc_BatchState) : iscc_BatchState :=
  { st with
      labels := Function.update st.labels x st.next_cluster_label
      assigned := Function.update st.assigned x true }

/-- The slot the seed step fills after the first `k-1` neighbors: when the
query point was assigned among them (a self-loop), the last neighbor;
otherwise the query point itself (the last neighbor is left alone). -/
def iscc_batch_seed_target (k q : Nat) (row : List Nat) : Nat :=
  if q ∈ row.take (k - 1) then row.getD (k - 1) 0 else q

/-- One accepted search row of `iscc_run_nng_batches`: skip an assigned
query; if all `k` neighbors are unassigned, guard against `SCC_CLABEL_MAX`,
assign the first `k-1` neighbors, then the last neighbor or the query
itself depending on the self-loop check, and bump the label; otherwise, when
`ignore_unassigned` is false, copy the first assigned neighbor's label as a
preliminary label. -/
def iscc_batch_process_row (k : Nat) (ignore_unassigned : Bool)
    (q : Nat) (rowNN : List Nat) (st : iscc_BatchState) :
    Except (scc_ErrorCode × String) iscc_BatchState :=
  if st.assigned q then .ok st
  else if rowNN.all (fun x => !st.assigned x) then
    if st.next_cluster_label = SCC_CLABEL_MAX then
      .error (SCC_ER_TOO_LARGE_PROBLEM,
        "Too many clusters (adjust the `scc_Clabel` type).")
    else
      .ok (let st1 := (rowNN.take (k - 1)).foldl
            (fun s x => iscc_batch_assign x s) st
          let st2 := if st1.assigned q
            then iscc_batch_assign (rowNN.getD (k - 1) 0) st1
            else iscc_batch_assign q st1
          { st2 with next_cluster_label := st2.next_cluster_label + 1 })
  else
    if ignore_unassigned then .ok st
    else
      match rowNN.find? (fun x => st.assigned x) with
      | some w =>
        .ok { st with labels := Function.update st.labels q (st.labels w) }
      | none => .ok st

/-- Process every accepted row of a batch in order, stopping at the first
error. -/
def iscc_batch_process (k : Nat) (ignore_unassigned : Bool)
    (results : List (Nat × List Nat)) (st : iscc_BatchState) :
    Except (scc_ErrorCode × String) iscc_BatchState :=
  results.foldlM
    (fun s qr => iscc_batch_process_row k ignore_unassigned qr.1 qr.2 s) st

/-- The batch-filling loop: walk `curr` forward collecting up to
`batch_size` unassigned points (restricted to primary points when a mask is
supplied), labelling every unassigned point `SCC_CLABEL_NA` on the way.
Returns the new cursor, the batch and the updated labels. -/
def iscc_fill_batch (n batch_size : Nat) (primary : Option (Nat → Bool))
    (assigned : Nat → Bool) (curr : Nat) (batch : List Nat)
    (labels : Nat → Nat) : Nat × List Nat × (Nat → Nat) :=
  if h : batch.length < batch_size ∧ curr < n then
    if assigned curr then
      iscc_fill_batch n batch_size primary assigned (curr + 1) batch labels
    else
      match primary with
      | none =>
        iscc_fill_batch n batch_size primary assigned (curr + 1)
          (batch ++ [curr]) (Function.update labels curr SCC_CLABEL_NA)
      | some p =>
        if p curr then
          iscc_fill_batch n batch_size primary assigned (curr + 1)
            (batch ++ [curr]) (Function.update labels curr SCC_CLABEL_NA)
        else
          iscc_fill_batch n batch_size primary assigned (curr + 1) batch
            (Function.update labels curr SCC_CLABEL_NA)
  else (curr, batch, labels)
termination_by n - curr
decreasing_by all_goals omega

theorem iscc_fill_batch_spec (n B : Nat) (primary : Option (Nat → Bool))
    (assigned : Nat → Bool) :
    ∀ curr (batch : List Nat) labels,
      (curr ≤ (iscc_fill_batch n B primary assigned curr batch labels).1) ∧
      ((iscc_fill_batch n B primary assigned curr batch labels).2.1 ≠ batch →
        curr < n ∧
        curr < (iscc_fill_batch n B primary assigned curr batch labels).1) := by
  have H : ∀ d curr (batch : List Nat) labels, n - curr ≤ d →
      (curr ≤ (iscc_fill_batch n B primary assigned curr batch labels).1) ∧
      ((iscc_fill_batch n B primary assigned curr batch labels).2.1 ≠ batch →
        curr < n ∧
        curr < (iscc_fill_batch n B primary assigned curr batch labels).1) := by
    intro d
    induction d with
    | zero =>
      intro curr batch labels hd
      rw [iscc_fill_batch.eq_def, dif_neg (by omega)]
      exact ⟨le_rfl, fun hne => absurd rfl hne⟩
    | succ d ih =>
      intro curr batch labels hd
      by_cases hc : batch.length < B ∧ curr < n
      · rw [iscc_fill_batch.eq_def, dif_pos hc]
        have step : ∀ (batch2 : List Nat) labels2,
            curr ≤ (iscc_fill_batch n B primary assigned (curr + 1)
                batch2 labels2).1 ∧
            ((iscc_fill_batch n B primary assigned (curr + 1)
                batch2 labels2).2.1 ≠ batch →
              curr < n ∧ curr < (iscc_fill_batch n B primary assigned
                (curr + 1) batch2 labels2).1) := by
          intro batch2 labels2
          obtain ⟨ih1, -⟩ := ih (curr + 1) batch2 labels2 (by omega)
          exact ⟨by omega, fun _ => ⟨hc.2, by omega⟩⟩
        by_cases ha : assigned curr
        · rw [if_pos ha]; exact step batch labels
        · rw [if_neg ha]
          cases primary with
          | none => exact step _ _
          | some p =>
            dsimp only
            by_cases hp : p curr
            · rw [if_pos hp]; exact step _ _
            · rw [if_neg hp]; exact step _ _
      · rw [iscc_fill_batch.eq_def, dif_neg hc]
        exact ⟨le_rfl, fun hne => absurd rfl hne⟩
  intro curr batch labels
  exact H (n - curr) curr batch labels le_rfl

/-- The outer loop of `iscc_run_nng_batches`: fill a batch; stop on an empty
batch; otherwise mark `search_done`, run the search, process the accepted
rows, and continue from the new cursor. -/
def iscc_run_batches (n k : Nat) (ignore_unassigned : Bool)
    (batch_size : Nat) (primary : Option (Nat → Bool))
    (search : List Nat → List (Nat × List Nat)) (curr : Nat)
    (st : iscc_BatchState) :
    Except (scc_ErrorCode × String) iscc_BatchState :=
  if hb : (iscc_fill_batch n batch_size primary st.assigned curr []
      st.labels).2.1 = [] then
    .ok { st with labels :=
      (iscc_fill_batch n batch_size primary st.assigned curr [] st.labels).2.2 }
  else
    match iscc_batch_process k ignore_unassigned
        (search (iscc_fill_batch n batch_size primary st.assigned curr []
          st.labels).2.1)
        { st with
            labels := (iscc_fill_batch n batch_size primary st.assigned
              curr [] st.labels).2.2
            search_done := true } with
    | .error e => .error e
    | .ok st2 =>
      iscc_run_batches n k ignore_unassigned batch_size primary search
        (iscc_fill_batch n batch_size primary st.assigned curr []
          st.labels).1 st2
termination_by n - curr
decreasing_by
  have h := (iscc_fill_batch_spec n batch_size primary st.assigned curr []
    st.labels).2 hb
  omega

/-- `iscc_run_nng_batches`: run the loop from point `0` with nothing
assigned; report `NO_SOLUTION` when no cluster was formed — with the
no-primary-points message when no search ever ran, the infeasible-radius
message otherwise — and set `num_clusters` on success.  The radius
constraint lives inside the abstract search oracle, which returns the
accepted `(query, k-neighbors)` rows of a batch. -/
def iscc_run_nng_batches (n k : Nat) (ignore_unassigned : Bool)
    (primary : Option (Nat → Bool)) (batch_size : Nat)
    (search : List Nat → List (Nat × List Nat)) (labels0 : Nat → Nat) :
    Except (scc_ErrorCode × String) scc_Clustering :=
  match iscc_run_batches n k ignore_unassigned batch_size primary search 0
      ⟨labels0, fun _ => false, 0, false⟩ with
  | .error e => .error e
  | .ok st =>
    if st.next_cluster_label = 0 then
      if st.search_done = false then
        .error (SCC_ER_NO_SOLUTION, "No primary data points.")
      else
        .error (SCC_ER_NO_SOLUTION, "Infeasible radius constraint.")
    else
      .ok ⟨n, st.next_cluster_label, st.labels⟩

-- ## Batch-clusterer proof layer

/-- Number of assigned points among `[0, n)`. -/
def iscc_assigned_count (n : Nat) (st : iscc_BatchState) : Nat :=
  ((List.range n).filter (fun v => st.assigned v)).length

theorem iscc_filter_update_length (l : List Nat) (hl : l.Nodup)
    (p : Nat → Bool) (x : Nat) (hx : x ∈ l) (hp : p x = false) :
    (l.filter (fun v => Function.update p x true v)).length
      = (l.filter (fun v => p v)).length + 1 := by
  induction l with
  | nil => simp at hx
  | cons y l ih =>
    rcases List.nodup_cons.mp hl with ⟨hy, hl2⟩
    by_cases hxy : x = y
    · subst hxy
      have htl : ∀ v ∈ l, (fun v => Function.update p x true v) v
          = (fun v => p v) v := by
        intro v hv
        have : v ≠ x := fun hh => hy (hh ▸ hv)
        simp [Function.update_noteq this]
      rw [List.filter_cons, List.filter_cons]
      rw [List.filter_congr htl]
      simp [hp]
    · have hxl : x ∈ l := by
        rcases List.mem_cons.mp hx with h | h
        · exact absurd h hxy
        · exact h
      rw [List.filter_cons, List.filter_cons]
      rw [Function.update_noteq (Ne.symm hxy)]
      by_cases hpy : p y = true
      · simp only [hpy, if_true]
        rw [List.length_cons, List.length_cons, ih hl2 hxl]
      · simp only [hpy, if_false]
        exact ih hl2 hxl

theorem iscc_filter_or_mem_length (n : Nat) (p : Nat → Bool)
    (xs : List Nat) (hnd : xs.Nodup) (hfresh : ∀ x ∈ xs, p x = false)
    (hlt : ∀ x ∈ xs, x < n) :
    ((List.range n).filter (fun v => p v || decide (v ∈ xs))).length
      = ((List.range n).filter (fun v => p v)).length + xs.length := by
  induction xs generalizing p with
  | nil => simp
  | cons x xs ih =>
    rcases List.nodup_cons.mp hnd with ⟨hx, hnd2⟩
    have hpt : ∀ v ∈ List.range n,
        (fun v => p v || decide (v ∈ x :: xs)) v
          = (fun v => Function.update p x true v || decide (v ∈ xs)) v := by
      intro v _
      by_cases hvx : v = x
      · subst hvx
        simp [hfresh v (List.mem_cons_self _ _), hx]
      · simp [Function.update_noteq hvx, hvx]
    rw [List.filter_congr hpt]
    rw [ih (Function.update p x true) hnd2
      (fun y hy => by
        rw [Function.update_noteq
          (fun hh : y = x => hx (by rw [← hh]; exact hy))]
        exact hfresh y (List.mem_cons_of_mem _ hy))
      (fun y hy => hlt y (List.mem_cons_of_mem _ hy))]
    rw [iscc_filter_update_length (List.range n) (List.nodup_range n) p x
      (List.mem_range.mpr (hlt x (List.mem_cons_self _ _)))
      (hfresh x (List.mem_cons_self _ _))]
    simp [Nat.add_comm, Nat.add_assoc, Nat.add_left_comm]

theorem iscc_batch_assign_fold (xs : List Nat) (st : iscc_BatchState) :
    (∀ y, (xs.foldl (fun s x => iscc_batch_assign x s) st).assigned y
      = (st.assigned y || decide (y ∈ xs))) ∧
    (∀ y, (xs.foldl (fun s x => iscc_batch_assign x s) st).labels y
      = if y ∈ xs then st.next_cluster_label else st.labels y) ∧
    (xs.foldl (fun s x => iscc_batch_assign x s) st).next_cluster_label
      = st.next_cluster_label ∧
    (xs.foldl (fun s x => iscc_batch_assign x s) st).search_done
      = st.search_done := by
  induction xs generalizing st with
  | nil => exact ⟨fun y => by simp, fun y => by simp, rfl, rfl⟩
  | cons x xs ih =>
    rw [List.foldl_cons]
    obtain ⟨ih1, ih2, ih3, ih4⟩ := ih (iscc_batch_assign x st)
    refine ⟨?_, ?_, ?_, ?_⟩
    · intro y
      rw [ih1]
      by_cases hyx : y = x
      · subst hyx
        simp [iscc_batch_assign]
      · simp [iscc_batch_assign, Function.update_noteq hyx, hyx]
    · intro y
      rw [ih2]
      by_cases hyx : y = x
      · subst hyx
        simp [iscc_batch_assign]
      · simp [iscc_batch_assign, Function.update_noteq hyx, hyx]
    · rw [ih3]; rfl
    · rw [ih4]; rfl

theorem iscc_getD_not_mem_take (row : List Nat) (k : Nat) (hnd : row.Nodup)
    (hlen : k - 1 < row.length) :
    row.getD (k - 1) 0 ∉ row.take (k - 1) := by
  have hsplit : row.take (k - 1) ++ row.drop (k - 1) = row :=
    List.take_append_drop _ _
  have hnd2 : (row.take (k - 1) ++ row.drop (k - 1)).Nodup := by
    rw [hsplit]; exact hnd
  rw [List.nodup_append] at hnd2
  obtain ⟨-, -, hdisj⟩ := hnd2
  intro hmem
  apply hdisj hmem
  have hl : 0 < (row.drop (k - 1)).length := by
    simp [List.length_drop]; omega
  have heq : (row.drop (k - 1)).get ⟨0, hl⟩ = row.getD (k - 1) 0 := by
    rw [List.getD_eq_getElem _ _ hlen]
    simp
  rw [← heq]
  exact List.get_mem _ _ hl

theorem iscc_batch_assign_spec (x : Nat) (s : iscc_BatchState) :
    (iscc_batch_assign x s).assigned = Function.update s.assigned x true ∧
    (iscc_batch_assign x s).labels
      = Function.update s.labels x s.next_cluster_label ∧
    (iscc_batch_assign x s).next_cluster_label = s.next_cluster_label ∧
    (iscc_batch_assign x s).search_done = s.search_done :=
  ⟨rfl, rfl, rfl, rfl⟩

/-- Exact behavior of the seed branch: the first `k-1` neighbors and the
target slot (last neighbor on a self-loop among the first `k-1`, the query
point otherwise) get assigned and labelled with the current label, which is
then bumped. -/
theorem iscc_batch_process_row_seed (k : Nat) (iu : Bool) (q : Nat)
    (row : List Nat) (st : iscc_BatchState)
    (hq : st.assigned q = false)
    (hall : ∀ x ∈ row, st.assigned x = false)
    (hcm : st.next_cluster_label ≠ SCC_CLABEL_MAX) :
    ∃ st2, iscc_batch_process_row k iu q row st = .ok st2 ∧
      st2.next_cluster_label = st.next_cluster_label + 1 ∧
      st2.search_done = st.search_done ∧
      (∀ y, st2.assigned y = (st.assigned y
        || decide (y ∈ row.take (k - 1))
        || decide (y = iscc_batch_seed_target k q row))) ∧
      (∀ y, st2.labels y
        = if y ∈ row.take (k - 1) ∨ y = iscc_batch_seed_target k q row
          then st.next_cluster_label else st.labels y) := by
  rw [iscc_batch_process_row, if_neg (by simp [hq]),
    if_pos (List.all_eq_true.mpr (fun x hx => by simp [hall x hx])),
    if_neg hcm]
  dsimp only
  obtain ⟨hf1, hf2, hf3, hf4⟩ := iscc_batch_assign_fold (row.take (k - 1)) st
  have hq1 : ((row.take (k - 1)).foldl (fun s x => iscc_batch_assign x s)
      st).assigned q = decide (q ∈ row.take (k - 1)) := by
    rw [hf1, hq, Bool.false_or]
  by_cases hqt : q ∈ row.take (k - 1)
  · rw [if_pos (by rw [hq1]; simpa using hqt)]
    refine ⟨_, rfl, ?_, ?_, ?_, ?_⟩
    · dsimp only
      rw [(iscc_batch_assign_spec _ _).2.2.1, hf3]
    · dsimp only
      rw [(iscc_batch_assign_spec _ _).2.2.2]
      exact hf4
    · intro y
      dsimp only
      rw [(iscc_batch_assign_spec _ _).1]
      rw [iscc_batch_seed_target, if_pos hqt]
      by_cases hyt : y = row.getD (k - 1) 0
      · rw [hyt, Function.update_same]
        simp
      · rw [Function.update_noteq hyt, hf1, decide_eq_false hyt,
          Bool.or_false]
    · intro y
      dsimp only
      rw [(iscc_batch_assign_spec _ _).2.1]
      rw [iscc_batch_seed_target, if_pos hqt]
      by_cases hyt : y = row.getD (k - 1) 0
      · rw [hyt, Function.update_same, hf3, if_pos (Or.inr rfl)]
      · rw [Function.update_noteq hyt, hf2]
        by_cases hymem : y ∈ row.take (k - 1)
        · rw [if_pos hymem, if_pos (Or.inl hymem)]
        · rw [if_neg hymem, if_neg (by
            rintro (h | h)
            · exact hymem h
            · exact hyt h)]
  · rw [if_neg (by rw [hq1]; simpa using hqt)]
    refine ⟨_, rfl, ?_, ?_, ?_, ?_⟩
    · dsimp only
      rw [(iscc_batch_assign_spec _ _).2.2.1, hf3]
    · dsimp only
      rw [(iscc_batch_assign_spec _ _).2.2.2]
      exact hf4
    · intro y
      dsimp only
      rw [(iscc_batch_assign_spec _ _).1]
      rw [iscc_batch_seed_target, if_neg hqt]
      by_cases hyt : y = q
      · rw [hyt, Function.update_same]
        simp
      · rw [Function.update_noteq hyt, hf1, decide_eq_false hyt,
          Bool.or_false]
    · intro y
      dsimp only
      rw [(iscc_batch_assign_spec _ _).2.1]
      rw [iscc_batch_seed_target, if_neg hqt]
      by_cases hyt : y = q
      · rw [hyt, Function.update_same, hf3, if_pos (Or.inr rfl)]
      · rw [Function.update_noteq hyt, hf2]
        by_cases hymem : y ∈ row.take (k - 1)
        · rw [if_pos hymem, if_pos (Or.inl hymem)]
        · rw [if_neg hymem, if_neg (by
            rintro (h | h)
            · exact hymem h
            · exact hyt h)]

theorem iscc_batch_process_row_skip (k : Nat) (iu : Bool) (q : Nat)
    (row : List Nat) (st : iscc_BatchState) (hq : st.assigned q = true) :
    iscc_batch_process_row k iu q row st = .ok st := by
  rw [iscc_batch_process_row, if_pos hq]

theorem iscc_batch_process_row_nonseed (k : Nat) (iu : Bool) (q : Nat)
    (row : List Nat) (st : iscc_BatchState)
    (hq : st.assigned q = false)
    (hx : ¬ ∀ x ∈ row, st.assigned x = false) :
    ∃ st2, iscc_batch_process_row k iu q row st = .ok st2 ∧
      st2.assigned = st.assigned ∧
      st2.next_cluster_label = st.next_cluster_label ∧
      st2.search_done = st.search_done := by
  rw [iscc_batch_process_row, if_neg (by simp [hq]),
    if_neg (by
      intro hc
      apply hx
      intro x hmem
      have := List.all_eq_true.mp hc x hmem
      simpa using this)]
  cases iu with
  | true => exact ⟨st, rfl, rfl, rfl, rfl⟩
  | false =>
    rcases hfind : row.find? (fun x => st.assigned x) with - | w
    · exact ⟨st, rfl, rfl, rfl, rfl⟩
    · exact ⟨_, rfl, rfl, rfl, rfl⟩

/-- The loop invariant of claim C5: every assigned point lies in `[0, n)`
and every cluster label consumed `k` assignments. -/
def iscc_batch_inv (n k : Nat) (st : iscc_BatchState) : Prop :=
  (∀ x, st.assigned x = true → x < n) ∧
  k * st.next_cluster_label ≤ iscc_assigned_count n st

theorem iscc_batch_process_row_ok (n k : Nat) (hk : 2 ≤ k)
    (hn : n ≤ SCC_DPID_MAX) (iu : Bool) (q : Nat) (row : List Nat)
    (hqn : q < n) (hlen : row.length = k) (hnd : row.Nodup)
    (hmem : ∀ x ∈ row, x < n) (st : iscc_BatchState)
    (hinv : iscc_batch_inv n k st) :
    ∃ st2, iscc_batch_process_row k iu q row st = .ok st2 ∧
      iscc_batch_inv n k st2 ∧
      st.next_cluster_label ≤ st2.next_cluster_label ∧
      st2.search_done = st.search_done := by
  by_cases hq : st.assigned q = true
  · exact ⟨st, iscc_batch_process_row_skip k iu q row st hq, hinv,
      le_rfl, rfl⟩
  · have hq2 : st.assigned q = false := by simpa using hq
    by_cases hall : ∀ x ∈ row, st.assigned x = false
    · have hcount_le : iscc_assigned_count n st ≤ n := by
        calc iscc_assigned_count n st
            ≤ (List.range n).length := List.length_filter_le _ _
          _ = n := List.length_range n
      have hcm : st.next_cluster_label ≠ SCC_CLABEL_MAX := by
        intro hEq
        have h2 := hinv.2
        rw [hEq] at h2
        have hkk : 2 * SCC_CLABEL_MAX ≤ k * SCC_CLABEL_MAX :=
          Nat.mul_le_mul_right _ hk
        have := le_trans h2 hcount_le
        unfold SCC_CLABEL_MAX at hkk this
        unfold SCC_DPID_MAX at hn
        omega
      obtain ⟨st2, hstep, hnext, hsd, hassigned, -⟩ :=
        iscc_batch_process_row_seed k iu q row st hq2 hall hcm
      have htake_len : (row.take (k - 1)).length = k - 1 := by
        rw [List.length_take, hlen]
        omega
      have htarget_row : iscc_batch_seed_target k q row ∈ row ∨
          iscc_batch_seed_target k q row = q := by
        rw [iscc_batch_seed_target]
        by_cases hqt : q ∈ row.take (k - 1)
        · rw [if_pos hqt]
          left
          have hkl : k - 1 < row.length := by omega
          rw [List.getD_eq_getElem _ _ hkl]
          exact List.getElem_mem hkl
        · rw [if_neg hqt]; right; rfl
      have htarget_fresh : st.assigned (iscc_batch_seed_target k q row)
          = false := by
        rcases htarget_row with h | h
        · exact hall _ h
        · rw [h]; exact hq2
      have htarget_not_take : iscc_batch_seed_target k q row
          ∉ row.take (k - 1) := by
        rw [iscc_batch_seed_target]
        by_cases hqt : q ∈ row.take (k - 1)
        · rw [if_pos hqt]
          exact iscc_getD_not_mem_take row k hnd (by omega)
        · rw [if_neg hqt]; exact hqt
      have hxs_nodup : (row.take (k - 1)
          ++ [iscc_batch_seed_target k q row]).Nodup := by
        rw [List.nodup_append]
        refine ⟨List.Sublist.nodup (List.take_sublist _ _) hnd,
          List.nodup_singleton _, ?_⟩
        intro a ha hb
        rw [List.mem_singleton.mp hb] at ha
        exact htarget_not_take ha
      have hxs_fresh : ∀ x ∈ row.take (k - 1)
          ++ [iscc_batch_seed_target k q row], st.assigned x = false := by
        intro x hxm
        rcases List.mem_append.mp hxm with hxm | hxm
        · exact hall x (List.mem_of_mem_take hxm)
        · rw [List.mem_singleton.mp hxm]; exact htarget_fresh
      have hxs_lt : ∀ x ∈ row.take (k - 1)
          ++ [iscc_batch_seed_target k q row], x < n := by
        intro x hxm
        rcases List.mem_append.mp hxm with hxm | hxm
        · exact hmem x (List.mem_of_mem_take hxm)
        · rw [List.mem_singleton.mp hxm]
          rcases htarget_row with h | h
          · exact hmem _ h
          · rw [h]; exact hqn
      have hcount2 : iscc_assigned_count n st2
          = iscc_assigned_count n st + k := by
        unfold iscc_assigned_count
        have hpt : ∀ v ∈ List.range n,
            (fun v => st2.assigned v) v
              = (fun v => st.assigned v || decide (v ∈ row.take (k - 1)
                  ++ [iscc_batch_seed_target k q row])) v := by
          intro v _
          show st2.assigned v = (st.assigned v
            || decide (v ∈ row.take (k - 1)
              ++ [iscc_batch_seed_target k q row]))
          rw [hassigned v]
          simp only [List.mem_append, List.mem_singleton]
          by_cases h1 : v ∈ row.take (k - 1) <;>
            by_cases h2 : v = iscc_batch_seed_target k q row <;>
              simp [h1, h2]
        rw [List.filter_congr hpt,
          iscc_filter_or_mem_length n _ _ hxs_nodup hxs_fresh hxs_lt]
        rw [List.length_append, htake_len]
        simp
        omega
      refine ⟨st2, hstep, ⟨?_, ?_⟩, by omega, hsd⟩
      · intro x hx
        rw [hassigned x] at hx
        simp only [Bool.or_eq_true, decide_eq_true_eq] at hx
        rcases hx with (hx | hx) | hx
        · exact hinv.1 x hx
        · exact hmem x (List.mem_of_mem_take hx)
        · rw [hx]
          rcases htarget_row with h | h
          · exact hmem _ h
          · rw [h]; exact hqn
      · rw [hnext, hcount2, Nat.mul_succ]
        have := hinv.2
        omega
    · obtain ⟨st2, hstep, hass, hnext, hsd⟩ :=
        iscc_batch_process_row_nonseed k iu q row st hq2 hall
      refine ⟨st2, hstep, ⟨?_, ?_⟩, by omega, hsd⟩
      · intro x hx
        rw [hass] at hx
        exact hinv.1 x hx
      · rw [hnext]
        have hcnt : iscc_assigned_count n st2 = iscc_assigned_count n st := by
          unfold iscc_assigned_count
          rw [hass]
        rw [hcnt]
        exact hinv.2

theorem iscc_batch_process_ok (n k : Nat) (hk : 2 ≤ k)
    (hn : n ≤ SCC_DPID_MAX) (iu : Bool) :
    ∀ (results : List (Nat × List Nat)) (st : iscc_BatchState),
      (∀ p ∈ results, p.1 < n ∧ p.2.length = k ∧ p.2.Nodup ∧
        ∀ x ∈ p.2, x < n) →
      iscc_batch_inv n k st →
      ∃ st2, iscc_batch_process k iu results st = .ok st2 ∧
        iscc_batch_inv n k st2 ∧
        st.next_cluster_label ≤ st2.next_cluster_label ∧
        st2.search_done = st.search_done := by
  intro results
  induction results with
  | nil => intro st _ h; exact ⟨st, rfl, h, le_rfl, rfl⟩
  | cons qr rest ih =>
    intro st hres h
    obtain ⟨hqv, hl, hd, hm⟩ := hres qr (List.mem_cons_self _ _)
    obtain ⟨st1, hstep, hinv1, hle1, hsd1⟩ :=
      iscc_batch_process_row_ok n k hk hn iu qr.1 qr.2 hqv hl hd hm st h
    obtain ⟨st2, hrest, hinv2, hle2, hsd2⟩ :=
      ih st1 (fun p hp => hres p (List.mem_cons_of_mem _ hp)) hinv1
    refine ⟨st2, ?_, hinv2, le_trans hle1 hle2, by rw [hsd2, hsd1]⟩
    rw [iscc_batch_process, List.foldlM_cons, hstep]
    exact hrest

theorem iscc_fill_batch_mem (n B : Nat) (primary : Option (Nat → Bool))
    (assigned : Nat → Bool) :
    ∀ curr (batch : List Nat) labels (x : Nat),
      x ∈ (iscc_fill_batch n B primary assigned curr batch labels).2.1 →
      x ∈ batch ∨ x < n := by
  have H : ∀ d curr (batch : List Nat) labels (x : Nat), n - curr ≤ d →
      x ∈ (iscc_fill_batch n B primary assigned curr batch labels).2.1 →
      x ∈ batch ∨ x < n := by
    intro d
    induction d with
    | zero =>
      intro curr batch labels x hd
      rw [iscc_fill_batch.eq_def, dif_neg (by omega)]
      exact fun h => Or.inl h
    | succ d ih =>
      intro curr batch labels x hd
      by_cases hc : batch.length < B ∧ curr < n
      · rw [iscc_fill_batch.eq_def, dif_pos hc]
        have hstep : ∀ (batch2 : List Nat) labels2,
            (∀ y ∈ batch2, y ∈ batch ∨ y < n) →
            x ∈ (iscc_fill_batch n B primary assigned (curr + 1)
              batch2 labels2).2.1 →
            x ∈ batch ∨ x < n := by
          intro batch2 labels2 hb2 hx
          rcases ih (curr + 1) batch2 labels2 x (by omega) hx with h | h
          · exact hb2 x h
          · exact Or.inr h
        have happ : ∀ y ∈ batch ++ [curr], y ∈ batch ∨ y < n := by
          intro y hy
          rcases List.mem_append.mp hy with h | h
          · exact Or.inl h
          · right; rw [List.mem_singleton.mp h]; exact hc.2
        by_cases ha : assigned curr
        · rw [if_pos ha]; exact hstep batch labels (fun y hy => Or.inl hy)
        · rw [if_neg ha]
          cases primary with
          | none => exact hstep _ _ happ
          | some p =>
            dsimp only
            by_cases hp : p curr
            · rw [if_pos hp]; exact hstep _ _ happ
            · rw [if_neg hp]; exact hstep _ _ (fun y hy => Or.inl hy)
      · rw [iscc_fill_batch.eq_def, dif_neg hc]
        exact fun h => Or.inl h
  intro curr batch labels x
  exact H (n - curr) curr batch labels x le_rfl

theorem iscc_fill_batch_ne_nil (n B : Nat) (primary : Option (Nat → Bool))
    (assigned : Nat → Bool) :
    ∀ curr (batch : List Nat) labels, batch ≠ [] →
      (iscc_fill_batch n B primary assigned curr batch labels).2.1 ≠ [] := by
  have H : ∀ d curr (batch : List Nat) labels, n - curr ≤ d → batch ≠ [] →
      (iscc_fill_batch n B primary assigned curr batch labels).2.1 ≠ [] := by
    intro d
    induction d with
    | zero =>
      intro curr batch labels hd hne
      rw [iscc_fill_batch.eq_def, dif_neg (by omega)]
      exact hne
    | succ d ih =>
      intro curr batch labels hd hne
      by_cases hc : batch.length < B ∧ curr < n
      · rw [iscc_fill_batch.eq_def, dif_pos hc]
        have happ : batch ++ [curr] ≠ [] := by simp
        by_cases ha : assigned curr
        · rw [if_pos ha]; exact ih (curr + 1) batch labels (by omega) hne
        · rw [if_neg ha]
          cases primary with
          | none => exact ih (curr + 1) _ _ (by omega) happ
          | some p =>
            dsimp only
            by_cases hp : p curr
            · rw [if_pos hp]; exact ih (curr + 1) _ _ (by omega) happ
            · rw [if_neg hp]; exact ih (curr + 1) _ _ (by omega) hne
      · rw [iscc_fill_batch.eq_def, dif_neg hc]
        exact hne
  intro curr batch labels
  exact H (n - curr) curr batch labels le_rfl

theorem iscc_fill_batch_nil_iff (n B : Nat) (hB : 0 < B)
    (primary : Option (Nat → Bool)) (assigned : Nat → Bool) :
    ∀ curr labels,
      ((iscc_fill_batch n B primary assigned curr [] labels).2.1 = []
        ↔ ∀ x, curr ≤ x → x < n →
            (assigned x = true ∨ ∃ p, primary = some p ∧ p x = false)) := by
  have H : ∀ d curr labels, n - curr ≤ d →
      ((iscc_fill_batch n B primary assigned curr [] labels).2.1 = []
        ↔ ∀ x, curr ≤ x → x < n →
            (assigned x = true ∨ ∃ p, primary = some p ∧ p x = false)) := by
    intro d
    induction d with
    | zero =>
      intro curr labels hd
      rw [iscc_fill_batch.eq_def, dif_neg (by omega)]
      simp only [true_iff]
      intro x hx1 hx2
      exact absurd hx2 (by omega)
    | succ d ih =>
      intro curr labels hd
      by_cases hcn : curr < n
      · rw [iscc_fill_batch.eq_def,
          dif_pos (by constructor <;> [simpa using hB; exact hcn])]
        have hsplit : (∀ x, curr ≤ x → x < n →
              (assigned x = true ∨ ∃ p, primary = some p ∧ p x = false))
            ↔ ((assigned curr = true
                ∨ ∃ p, primary = some p ∧ p curr = false)
              ∧ ∀ x, curr + 1 ≤ x → x < n →
                (assigned x = true ∨ ∃ p, primary = some p ∧ p x = false)) := by
          constructor
          · intro h
            exact ⟨h curr le_rfl hcn, fun x hx1 hx2 => h x (by omega) hx2⟩
          · rintro ⟨h1, h2⟩ x hx1 hx2
            by_cases hxc : x = curr
            · rw [hxc]; exact h1
            · exact h2 x (by omega) hx2
        by_cases ha : assigned curr
        · rw [if_pos ha, ih (curr + 1) labels (by omega), hsplit]
          constructor
          · intro h; exact ⟨Or.inl ha, h⟩
          · rintro ⟨-, h⟩; exact h
        · rw [if_neg ha]
          cases primary with
          | none =>
            have hne := iscc_fill_batch_ne_nil n B none assigned (curr + 1)
              [curr] (Function.update labels curr SCC_CLABEL_NA) (by simp)
            constructor
            · intro h; exact absurd h hne
            · intro h
              rcases h curr le_rfl hcn with h1 | ⟨p, hp, -⟩
              · exact absurd h1 (by simpa using ha)
              · exact absurd hp (by simp)
          | some p =>
            dsimp only
            by_cases hp : p curr
            · rw [if_pos hp]
              have hne := iscc_fill_batch_ne_nil n B (some p) assigned
                (curr + 1) [curr]
                (Function.update labels curr SCC_CLABEL_NA) (by simp)
              constructor
              · intro h; exact absurd h hne
              · intro h
                rcases h curr le_rfl hcn with h1 | ⟨p2, hp2, hp3⟩
                · exact absurd h1 (by simpa using ha)
                · rw [← Option.some_inj.mp hp2] at hp3
                  rw [hp3] at hp
                  exact absurd hp (by simp)
            · rw [if_neg hp, ih (curr + 1) _ (by omega), hsplit]
              constructor
              · intro h
                refine ⟨Or.inr ⟨p, rfl, by simpa using hp⟩, h⟩
              · rintro ⟨-, h⟩; exact h
      · rw [iscc_fill_batch.eq_def, dif_neg (by omega)]
        simp only [true_iff]
        intro x hx1 hx2
        exact absurd hx2 (by omega)
  intro curr labels
  exact H (n - curr) curr labels le_rfl

theorem iscc_run_batches_spec (n k : Nat) (hk : 2 ≤ k)
    (hn : n ≤ SCC_DPID_MAX) (iu : Bool) (B : Nat)
    (primary : Option (Nat → Bool))
    (search : List Nat → List (Nat × List Nat))
    (hsearch : ∀ qs : List Nat, (∀ x ∈ qs, x < n) →
      ∀ p ∈ search qs, p.1 < n ∧ p.2.length = k ∧ p.2.Nodup ∧
        ∀ x ∈ p.2, x < n) :
    ∀ curr (st : iscc_BatchState), iscc_batch_inv n k st →
      ∃ st2, iscc_run_batches n k iu B primary search curr st = .ok st2 ∧
        iscc_batch_inv n k st2 ∧
        st.next_cluster_label ≤ st2.next_cluster_label ∧
        st2.search_done = (st.search_done ||
          !decide ((iscc_fill_batch n B primary st.assigned curr []
            st.labels).2.1 = [])) := by
  have H : ∀ d curr (st : iscc_BatchState), n - curr ≤ d →
      iscc_batch_inv n k st →
      ∃ st2, iscc_run_batches n k iu B primary search curr st = .ok st2 ∧
        iscc_batch_inv n k st2 ∧
        st.next_cluster_label ≤ st2.next_cluster_label ∧
        st2.search_done = (st.search_done ||
          !decide ((iscc_fill_batch n B primary st.assigned curr []
            st.labels).2.1 = [])) := by
    intro d
    induction d with
    | zero =>
      intro curr st hd hinv
      have hfb : iscc_fill_batch n B primary st.assigned curr [] st.labels
          = (curr, [], st.labels) := by
        rw [iscc_fill_batch.eq_def, dif_neg (by omega)]
      rw [iscc_run_batches.eq_def, dif_pos (by rw [hfb])]
      refine ⟨_, rfl, ⟨hinv.1, hinv.2⟩, le_rfl, ?_⟩
      rw [hfb]
      simp
    | succ d ih =>
      intro curr st hd hinv
      rw [iscc_run_batches.eq_def]
      by_cases hb : (iscc_fill_batch n B primary st.assigned curr []
          st.labels).2.1 = []
      · rw [dif_pos hb]
        refine ⟨_, rfl, ⟨hinv.1, hinv.2⟩, le_rfl, ?_⟩
        rw [hb]
        simp
      · rw [dif_neg hb]
        have hqs : ∀ x ∈ (iscc_fill_batch n B primary st.assigned curr []
            st.labels).2.1, x < n := by
          intro x hx
          rcases iscc_fill_batch_mem n B primary st.assigned curr []
            st.labels x hx with h | h
          · exact absurd h (List.not_mem_nil x)
          · exact h
        have hres := hsearch _ hqs
        have hinv1 : iscc_batch_inv n k
            { st with
                labels := (iscc_fill_batch n B primary st.assigned curr []
                  st.labels).2.2
                search_done := true } := ⟨hinv.1, hinv.2⟩
        obtain ⟨st1, hproc, hinv2, hle1, hsd1⟩ :=
          iscc_batch_process_ok n k hk hn iu _ _ hres hinv1
        rw [hproc]
        have hprog := (iscc_fill_batch_spec n B primary st.assigned curr []
          st.labels).2 hb
        obtain ⟨st2, hrec, hinv3, hle2, hsd2⟩ :=
          ih (iscc_fill_batch n B primary st.assigned curr [] st.labels).1
            st1 (by omega) hinv2
        refine ⟨st2, hrec, hinv3, le_trans hle1 hle2, ?_⟩
        have hsd1t : st1.search_done = true := hsd1
        rw [hsd2, hsd1t]
        simp [hb]
  intro curr st
  exact H (n - curr) curr st le_rfl

-- ## Claim C2: the seed branch of one accepted search row

/-- Claim C2 (corrected).  For an accepted search row whose query point is
still unassigned, the query becomes a seed if and only if all `k` returned
neighbors are unassigned; on success exactly `k` distinct points — the
first `k-1` neighbors plus the target slot (the last neighbor when the
query appeared among its own first `k-1` neighbors, the query point itself
otherwise) — are newly assigned and labelled with the next cluster label,
every other label is untouched, and when the query did not appear among
its neighbors the last (`k`-th) neighbor is left unassigned, so the new
cluster never has `k+1` members. -/
theorem claim_C2 (k : Nat) (hk : 2 ≤ k) (iu : Bool) (q : Nat)
    (row : List Nat) (st : iscc_BatchState)
    (hq : st.assigned q = false) (hlen : row.length = k) (hnd : row.Nodup)
    (hcm : st.next_cluster_label ≠ SCC_CLABEL_MAX) :
    (∀ st2, iscc_batch_process_row k iu q row st = .ok st2 →
      (st2.next_cluster_label = st.next_cluster_label + 1
        ↔ ∀ x ∈ row, st.assigned x = false)) ∧
    ((∀ x ∈ row, st.assigned x = false) →
      ∃ st2, iscc_batch_process_row k iu q row st = .ok st2 ∧
        (∀ y, st2.assigned y = (st.assigned y
          || decide (y ∈ row.take (k - 1)
              ++ [iscc_batch_seed_target k q row]))) ∧
        (∀ y, y ∈ row.take (k - 1) ++ [iscc_batch_seed_target k q row] →
          st2.labels y = st.next_cluster_label) ∧
        (∀ y, y ∉ row.take (k - 1) ++ [iscc_batch_seed_target k q row] →
          st2.labels y = st.labels y) ∧
        (row.take (k - 1) ++ [iscc_batch_seed_target k q row]).Nodup ∧
        (row.take (k - 1) ++ [iscc_batch_seed_target k q row]).length = k ∧
        (q ∉ row → st2.assigned (row.getD (k - 1) 0) = false)) := by
  constructor
  · intro st2 hok2
    by_cases hall : ∀ x ∈ row, st.assigned x = false
    · obtain ⟨st2e, hstep, hnext, -, -, -⟩ :=
        iscc_batch_process_row_seed k iu q row st hq hall hcm
      rw [hstep] at hok2
      have heq : st2 = st2e := (Except.ok.inj hok2).symm
      rw [heq, hnext]
      exact iff_of_true rfl hall
    · obtain ⟨st2e, hstep, -, hnext, -⟩ :=
        iscc_batch_process_row_nonseed k iu q row st hq hall
      rw [hstep] at hok2
      have heq : st2 = st2e := (Except.ok.inj hok2).symm
      rw [heq, hnext]
      exact iff_of_false (by omega) hall
  · intro hall
    obtain ⟨st2, hstep, hnext, hsd, hassigned, hlabels⟩ :=
      iscc_batch_process_row_seed k iu q row st hq hall hcm
    have hkl : k - 1 < row.length := by omega
    have htgt_notmem : iscc_batch_seed_target k q row ∉ row.take (k - 1) := by
      rw [iscc_batch_seed_target]
      by_cases hqt : q ∈ row.take (k - 1)
      · rw [if_pos hqt]
        exact iscc_getD_not_mem_take row k hnd hkl
      · rw [if_neg hqt]; exact hqt
    refine ⟨st2, hstep, ?_, ?_, ?_, ?_, ?_, ?_⟩
    · intro y
      rw [hassigned y]
      by_cases hm1 : y ∈ row.take (k - 1) <;>
        by_cases hm2 : y = iscc_batch_seed_target k q row <;>
          simp [hm1, hm2, List.mem_append]
    · intro y hy
      rw [hlabels y, if_pos (by simpa using hy)]
    · intro y hy
      rw [hlabels y, if_neg (by
        intro hc
        apply hy
        rcases hc with h | h
        · exact List.mem_append.mpr (Or.inl h)
        · exact List.mem_append.mpr (Or.inr (List.mem_singleton.mpr h)))]
    · rw [List.nodup_append]
      refine ⟨List.Sublist.nodup (List.take_sublist _ _) hnd,
        List.nodup_singleton _, ?_⟩
      intro a ha hb
      rw [List.mem_singleton.mp hb] at ha
      exact htgt_notmem ha
    · rw [List.length_append, List.length_take, List.length_singleton, hlen]
      omega
    · intro hqrow
      have hqt : q ∉ row.take (k - 1) := fun hc =>
        hqrow (List.mem_of_mem_take hc)
      have htgt : iscc_batch_seed_target k q row = q := by
        rw [iscc_batch_seed_target, if_neg hqt]
      have hgd : row.getD (k - 1) 0 ∈ row := by
        rw [List.getD_eq_getElem _ _ hkl]
        exact List.getElem_mem hkl
      have h1 : row.getD (k - 1) 0 ∉ row.take (k - 1) :=
        iscc_getD_not_mem_take row k hnd hkl
      have h2 : ¬ (row.getD (k - 1) 0 = q) := fun hc => hqrow (hc ▸ hgd)
      rw [hassigned (row.getD (k - 1) 0), htgt, hall _ hgd,
        decide_eq_false h1, decide_eq_false h2]
      rfl

/-- Counterexample to the original claim C2: with `k = 2`, query `0` and
unassigned neighbors `[1, 2]` (no self-loop), only two points of `[0, 3)`
are assigned after the seed step — the new cluster has `k`, not `k + 1`,
members, because the query takes the slot the last neighbor would have
used. -/
theorem claim_C2_cex :
    (iscc_batch_process_row 2 true 0 [1, 2]
        ⟨fun _ => SCC_CLABEL_NA, fun _ => false, 0, false⟩).toOption.map
      (fun s => ((List.range 3).filter (fun v => s.assigned v)).length)
      = some 2 := by
  decide

/-- Witness for claim C2: `k = 2`, query `0` with unassigned neighbors
`[1, 2]` from the all-unassigned state; the query and its first neighbor
get label `0` and the second neighbor stays unassigned. -/
theorem claim_C2_witness :
    (iscc_batch_process_row 2 true 0 [1, 2]
        ⟨fun _ => SCC_CLABEL_NA, fun _ => false, 0, false⟩).toOption.map
      (fun s => (s.labels 0, s.labels 1, s.assigned 0, s.assigned 1,
        s.assigned 2)) = some (0, 0, true, true, false) := by
  obtain ⟨-, hseed⟩ := claim_C2 2 (by decide) true 0 [1, 2]
    ⟨fun _ => SCC_CLABEL_NA, fun _ => false, 0, false⟩ rfl rfl (by decide)
    (by decide)
  obtain ⟨st2, hstep, hassigned, hlab1, -, -, -, hlast⟩ :=
    hseed (fun x _ => rfl)
  rw [hstep]
  show some (st2.labels 0, st2.labels 1, st2.assigned 0, st2.assigned 1,
    st2.assigned 2) = some (0, 0, true, true, false)
  have h0 : st2.labels 0 = 0 := hlab1 0 (by decide)
  have h1 : st2.labels 1 = 0 := hlab1 1 (by decide)
  have h2 : st2.assigned 0 = true := by rw [hassigned 0]; decide
  have h3 : st2.assigned 1 = true := by rw [hassigned 1]; decide
  have h4 : st2.assigned 2 = false := hlast (by decide)
  rw [h0, h1, h2, h3, h4]

-- ## Claim C3: termination and the two NO_SOLUTION cases

/-- Claim C3 (confirmed).  The batch clusterer returns `NO_SOLUTION`
exactly when zero clusters were formed, and it distinguishes the two
cases: `search_done` stays `false` precisely when the primary mask selects
no point in `[0, n)` (so no search ever ran — message "No primary data
points."), which forces zero clusters; when a search ran but no seed was
formed the message is "Infeasible radius constraint."; otherwise it
returns OK with `num_clusters` set to the number of labels used. -/
theorem claim_C3 (n k : Nat) (hk : 2 ≤ k) (hn : n ≤ SCC_DPID_MAX)
    (hn0 : 0 < n) (iu : Bool) (B : Nat) (hB : 0 < B)
    (primary : Option (Nat → Bool))
    (search : List Nat → List (Nat × List Nat))
    (hsearch : ∀ qs : List Nat, (∀ x ∈ qs, x < n) →
      ∀ p ∈ search qs, p.1 < n ∧ p.2.length = k ∧ p.2.Nodup ∧
        ∀ x ∈ p.2, x < n)
    (labels0 : Nat → Nat) :
    ∃ st, iscc_run_batches n k iu B primary search 0
        ⟨labels0, fun _ => false, 0, false⟩ = .ok st ∧
      ((∃ msg, iscc_run_nng_batches n k iu primary B search labels0
          = .error (SCC_ER_NO_SOLUTION, msg))
        ↔ st.next_cluster_label = 0) ∧
      (st.search_done = false
        ↔ ∃ p, primary = some p ∧ ∀ x, x < n → p x = false) ∧
      (st.search_done = false → st.next_cluster_label = 0) ∧
      (st.next_cluster_label = 0 →
        iscc_run_nng_batches n k iu primary B search labels0
          = .error (SCC_ER_NO_SOLUTION,
              if st.search_done then "Infeasible radius constraint."
              else "No primary data points.")) ∧
      (st.next_cluster_label ≠ 0 →
        iscc_run_nng_batches n k iu primary B search labels0
          = .ok ⟨n, st.next_cluster_label, st.labels⟩) := by
  have hinv0 : iscc_batch_inv n k ⟨labels0, fun _ => false, 0, false⟩ := by
    constructor
    · intro x hx; exact absurd hx (by simp)
    · simp [iscc_assigned_count]
  obtain ⟨st, hok, hinv, -, hsd⟩ := iscc_run_batches_spec n k hk hn iu B
    primary search hsearch 0 ⟨labels0, fun _ => false, 0, false⟩ hinv0
  dsimp only at hsd
  have hfill_iff := iscc_fill_batch_nil_iff n B hB primary
    (fun _ => false) 0 labels0
  have hmask : (iscc_fill_batch n B primary (fun _ => false) 0 []
        labels0).2.1 = []
      ↔ ∃ p, primary = some p ∧ ∀ x, x < n → p x = false := by
    rw [hfill_iff]
    constructor
    · intro h2
      rcases h2 0 (Nat.zero_le 0) hn0 with h1 | ⟨p, hp, -⟩
      · exact absurd h1 (by simp)
      · refine ⟨p, hp, ?_⟩
        intro x hx
        rcases h2 x (Nat.zero_le x) hx with h1 | ⟨p2, hp2, hpx⟩
        · exact absurd h1 (by simp)
        · rw [hp] at hp2
          have hpe : p2 = p := (Option.some_inj.mp hp2).symm
          rw [hpe] at hpx
          exact hpx
    · rintro ⟨p, hp, hall⟩ x _ hx
      exact Or.inr ⟨p, hp, hall x hx⟩
  have hsdb : st.search_done
      = !decide ((iscc_fill_batch n B primary (fun _ => false) 0 []
          labels0).2.1 = []) := by
    rw [hsd]; simp
  have hsdf_iff : st.search_done = false
      ↔ (iscc_fill_batch n B primary (fun _ => false) 0 []
          labels0).2.1 = [] := by
    rw [hsdb]
    constructor
    · intro h
      by_contra hne
      rw [decide_eq_false hne] at h
      exact absurd h (by simp)
    · intro h
      rw [decide_eq_true h]
      rfl
  have hzero : st.search_done = false → st.next_cluster_label = 0 := by
    intro h
    have hFnil := hsdf_iff.mp h
    have hrun : iscc_run_batches n k iu B primary search 0
        ⟨labels0, fun _ => false, 0, false⟩
        = .ok ⟨(iscc_fill_batch n B primary (fun _ => false) 0 []
            labels0).2.2, fun _ => false, 0, false⟩ := by
      rw [iscc_run_batches.eq_def]
      dsimp only
      rw [dif_pos hFnil]
    rw [hrun] at hok
    have heq := Except.ok.inj hok
    rw [← heq]
  have hA : st.next_cluster_label = 0 →
      iscc_run_nng_batches n k iu primary B search labels0
        = .error (SCC_ER_NO_SOLUTION,
            if st.search_done then "Infeasible radius constraint."
            else "No primary data points.") := by
    intro h0
    rw [iscc_run_nng_batches, hok]
    dsimp only
    rw [if_pos h0]
    cases hsdv : st.search_done with
    | false => simp
    | true => simp
  have hOk : st.next_cluster_label ≠ 0 →
      iscc_run_nng_batches n k iu primary B search labels0
        = .ok ⟨n, st.next_cluster_label, st.labels⟩ := by
    intro hne
    rw [iscc_run_nng_batches, hok]
    dsimp only
    rw [if_neg hne]
  refine ⟨st, hok, ?_, hsdf_iff.trans hmask, hzero, hA, hOk⟩
  constructor
  · rintro ⟨msg, hmsg⟩
    by_contra hne
    rw [hOk hne] at hmsg
    exact absurd hmsg (by simp)
  · intro h0
    exact ⟨_, hA h0⟩

/-- Witness for claim C3: `n = 2`, `k = 2`, an all-false primary mask and
an empty search oracle end with `NO_SOLUTION` and the no-primary-points
message. -/
theorem claim_C3_witness :
    iscc_run_nng_batches 2 2 true (some (fun _ => false)) 1
      (fun _ => []) (fun _ => 0)
      = .error (SCC_ER_NO_SOLUTION, "No primary data points.") := by
  obtain ⟨st, -, -, hmask, hzero, hA, -⟩ := claim_C3 2 2 (le_refl 2)
    (by decide) (by decide) true 1 (by decide) (some (fun _ => false))
    (fun _ => []) (fun qs h p hp => absurd hp (List.not_mem_nil p))
    (fun _ => 0)
  have hsdf : st.search_done = false :=
    hmask.mpr ⟨fun _ => false, rfl, fun x _ => rfl⟩
  have h0 : st.next_cluster_label = 0 := hzero hsdf
  have hfin := hA h0
  rw [hsdf] at hfin
  simpa using hfin

-- ## Claim C5: the label-capacity bound on both cluster-producing paths

/-- Claim C5 (confirmed).  Both cluster-producing paths enforce the label
capacity `SCC_CLABEL_MAX`: `iscc_fs_add_seed` fails with
`TOO_LARGE_PROBLEM` exactly when the seed count already equals
`SCC_CLABEL_MAX`; the batch seed branch fails with `TOO_LARGE_PROBLEM`
when the next label equals `SCC_CLABEL_MAX`; and every result returned
with OK — a seed result of `iscc_find_seeds` or a clustering of
`iscc_run_nng_batches` — has its count strictly below `SCC_CLABEL_MAX`. -/
theorem claim_C5 (g : iscc_Digraph) (hg : iscc_digraph_is_valid g = true)
    (m : scc_SeedMethod) (cap : Nat) (ro : Bool) (rs : iscc_SeedResult)
    (hrs : iscc_find_seeds g m cap ro = .ok rs)
    (n k : Nat) (hk : 2 ≤ k) (hn : n ≤ SCC_DPID_MAX) (iu : Bool) (B : Nat)
    (primary : Option (Nat → Bool))
    (search : List Nat → List (Nat × List Nat))
    (hsearch : ∀ qs : List Nat, (∀ x ∈ qs, x < n) →
      ∀ p ∈ search qs, p.1 < n ∧ p.2.length = k ∧ p.2.Nodup ∧
        ∀ x ∈ p.2, x < n)
    (labels0 : Nat → Nat) :
    (∀ (s : Nat) (r : iscc_SeedResult),
      iscc_fs_add_seed s r = .error SCC_ER_TOO_LARGE_PROBLEM
        ↔ r.count = SCC_CLABEL_MAX) ∧
    (∀ (k2 : Nat) (iu2 : Bool) (q : Nat) (row : List Nat)
        (stb : iscc_BatchState), stb.assigned q = false →
      (∀ x ∈ row, stb.assigned x = false) →
      stb.next_cluster_label = SCC_CLABEL_MAX →
      iscc_batch_process_row k2 iu2 q row stb
        = .error (SCC_ER_TOO_LARGE_PROBLEM,
            "Too many clusters (adjust the `scc_Clabel` type).")) ∧
    rs.count < SCC_CLABEL_MAX ∧
    (∀ cl, iscc_run_nng_batches n k iu primary B search labels0 = .ok cl →
      cl.num_clusters < SCC_CLABEL_MAX) := by
  refine ⟨fun s r => iscc_fs_add_seed_error_iff s r, ?_, ?_, ?_⟩
  · intro k2 iu2 q row stb hq hall hCM
    rw [iscc_batch_process_row, if_neg (by simp [hq]),
      if_pos (List.all_eq_true.mpr (fun x hx => by simp [hall x hx])),
      if_pos hCM]
  · rw [iscc_find_seeds] at hrs
    rcases hrun : iscc_find_seeds_run g m cap with e | r0
    · rw [hrun] at hrs; exact absurd hrs (by simp)
    · rw [hrun] at hrs
      dsimp only at hrs
      have hcount : rs.count = r0.count := by
        by_cases hc : r0.count < r0.capacity ∧ 0 < r0.count ∧ ro = true
        · rw [if_pos hc] at hrs
          have hre : rs = { r0 with capacity := r0.count } := by
            simpa using hrs.symm
          rw [hre]
        · rw [if_neg hc] at hrs
          have hre : rs = r0 := by simpa using hrs.symm
          rw [hre]
      have hle := iscc_find_seeds_run_count_le g hg m cap r0 hrun
      have hv := (iscc_valid_fields g hg).1
      have hx : SCC_DPID_MAX ≤ SCC_CLABEL_MAX := le_refl _
      rw [hcount]
      omega
  · intro cl hcl
    have hinv0 : iscc_batch_inv n k ⟨labels0, fun _ => false, 0, false⟩ :=
      ⟨fun x hx => absurd hx (by simp), by simp [iscc_assigned_count]⟩
    obtain ⟨st, hok, hinv, -, -⟩ := iscc_run_batches_spec n k hk hn iu B
      primary search hsearch 0 ⟨labels0, fun _ => false, 0, false⟩ hinv0
    rw [iscc_run_nng_batches, hok] at hcl
    dsimp only at hcl
    by_cases h0 : st.next_cluster_label = 0
    · rw [if_pos h0] at hcl
      by_cases hsd : st.search_done = false
      · rw [if_pos hsd] at hcl; exact absurd hcl (by simp)
      · rw [if_neg hsd] at hcl; exact absurd hcl (by simp)
    · rw [if_neg h0] at hcl
      have hcle : cl = ⟨n, st.next_cluster_label, st.labels⟩ :=
        (Except.ok.inj hcl).symm
      rw [hcle]
      show st.next_cluster_label < SCC_CLABEL_MAX
      obtain ⟨hbound, hcnt⟩ := hinv
      have hacn : iscc_assigned_count n st ≤ n := by
        unfold iscc_assigned_count
        calc ((List.range n).filter (fun v => st.assigned v)).length
            ≤ (List.range n).length := List.length_filter_le _ _
          _ = n := List.length_range n
      have h2n : 2 * st.next_cluster_label ≤ k * st.next_cluster_label :=
        Nat.mul_le_mul_right _ hk
      have h2 : 2 * st.next_cluster_label ≤ iscc_assigned_count n st :=
        le_trans h2n hcnt
      have hDC : SCC_DPID_MAX ≤ SCC_CLABEL_MAX := le_refl _
      omega

/-- Witness for claim C5: a seed result at the count cap makes
`iscc_fs_add_seed` fail with `TOO_LARGE_PROBLEM`, and the seed result the
lexical method returns on the two-vertex swap digraph has its count below
the cap. -/
theorem claim_C5_witness :
    iscc_fs_add_seed 0 ⟨1, SCC_CLABEL_MAX, []⟩
        = .error SCC_ER_TOO_LARGE_PROBLEM ∧
    (⟨1, 1, [0]⟩ : iscc_SeedResult).count < SCC_CLABEL_MAX := by
  have h := claim_C5 iscc_exSwap2 (by decide) .SCC_SM_LEXICAL 4 true
    ⟨1, 1, [0]⟩ rfl 2 2 (le_refl 2) (by decide) true 1 none (fun _ => [])
    (fun qs hqs p hp => absurd hp (List.not_mem_nil p)) (fun _ => 0)
  exact ⟨(h.1 0 ⟨1, SCC_CLABEL_MAX, []⟩).mpr rfl, h.2.2.1⟩

-- ## The error reporter (`error.c`)

/-- The static error carrier of `error.c`: the latest code, the optional
message pointer, and the file/line of the `iscc_make_error__` call. -/
structure iscc_ErrorState where
  error_code : scc_ErrorCode
  error_msg : Option (List Char)
  error_file : List Char
  error_line : Int
  deriving DecidableEq, Repr

/-- `iscc_make_error__`: record code, message, file and line, and return
the code. -/
def iscc_make_error (ec : scc_ErrorCode) (msg : Option (List Char))
    (file : List Char) (line : Int) :
    scc_ErrorCode × iscc_ErrorState :=
  (ec, ⟨ec, msg, file, line⟩)

/-- `iscc_reset_error`: restore the initial no-error state. -/
def iscc_reset_error : iscc_ErrorState :=
  ⟨SCC_ER_OK, none, "unknown file".toList, -1⟩

/-- The per-code fallback messages of `scc_get_latest_error` (the switch
has no case for `SCC_ER_TOO_LARGE_DIGRAPH`, which falls to the default
arm, and `SCC_ER_OK` never reaches the switch). -/
def iscc_default_error_message (ec : scc_ErrorCode) : List Char :=
  (match ec with
   | SCC_ER_UNKNOWN_ERROR => "Unkonwn error."
   | SCC_ER_INVALID_INPUT => "Function parameters are invalid."
   | SCC_ER_NO_MEMORY => "Cannot allocate required memory."
   | SCC_ER_NO_SOLUTION => "Clustering problem has no solution."
   | SCC_ER_TOO_LARGE_PROBLEM => "Clustering problem is too large."
   | SCC_ER_DIST_SEARCH_ERROR => "Failed to calculate distances."
   | SCC_ER_NOT_IMPLEMENTED => "Functionality not yet implemented."
   | _ => "Unknown error code.").toList

/-- The full formatted message: `"(scclust:<file>:<line>) <message>"` for
a recorded error, the fixed `"(scclust) No error."` otherwise. -/
def iscc_format_error (st : iscc_ErrorState) : List Char :=
  if st.error_code = SCC_ER_OK then "(scclust) No error.".toList
  else "(scclust:".toList ++ st.error_file ++ ":".toList
    ++ (toString st.error_line).toList ++ ") ".toList
    ++ (match st.error_msg with
        | some m => m
        | none => iscc_default_error_message st.error_code)

/-- `scc_get_latest_error`: `len` is the caller's buffer length and
`buffer_present` whether the buffer pointer is non-null; the result pairs
the C boolean return with the buffer contents.  `snprintf` writes the
first `len - 1` characters plus a terminator and returns the untruncated
length, which is never negative here, so after the early guard the
function always returns `true`. -/
def scc_get_latest_error (len : Nat) (buffer_present : Bool)
    (st : iscc_ErrorState) : Bool × List Char :=
  if len = 0 ∨ buffer_present = false then (false, [])
  else (true, (iscc_format_error st).take (len - 1))

/-- A recorded error used by the claim C9 counterexample. -/
def iscc_c9_state : iscc_ErrorState :=
  (iscc_make_error SCC_ER_NO_SOLUTION
    (some "No primary data points.".toList)
    "nng_batch_clustering.c".toList 262).2

/-- Counterexample to claim C9: with a recorded error and a 5-byte buffer
the formatted message is truncated, yet `scc_get_latest_error` returns
`true` — `snprintf`'s return value is the untruncated length, which is
non-negative, so the truncation check the claim describes never fires. -/
theorem claim_C9_cex :
    (scc_get_latest_error 5 true iscc_c9_state).1 = true ∧
    (scc_get_latest_error 5 true iscc_c9_state).2
      ≠ iscc_format_error iscc_c9_state ∧
    ((scc_get_latest_error 5 true iscc_c9_state).2.length
      < (iscc_format_error iscc_c9_state).length) := by
  refine ⟨rfl, ?_, ?_⟩ <;> decide

/-- Claim C9 (corrected).  `scc_get_latest_error` copies the formatted
message `"(scclust:<file>:<line>) <message>"` (or `"(scclust) No error."`)
truncated to `len - 1` characters into the caller's buffer and returns
`false` exactly for a zero-length or null buffer; it returns `true` even
when the message was truncated, and the full message is delivered
precisely when it fits within `len - 1` characters. -/
theorem claim_C9 (len : Nat) (present : Bool) (st : iscc_ErrorState) :
    ((scc_get_latest_error len present st).1 = false
        ↔ (len = 0 ∨ present = false)) ∧
    ((scc_get_latest_error len present st).2.length ≤ len - 1) ∧
    (st.error_code = SCC_ER_OK →
      iscc_format_error st = "(scclust) No error.".toList) ∧
    (present = true → (iscc_format_error st).length < len →
      (scc_get_latest_error len present st).2 = iscc_format_error st) := by
  refine ⟨?_, ?_, ?_, ?_⟩
  · by_cases h : len = 0 ∨ present = false
    · rw [scc_get_latest_error, if_pos h]
      exact iff_of_true rfl h
    · rw [scc_get_latest_error, if_neg h]
      exact iff_of_false (by simp) h
  · by_cases h : len = 0 ∨ present = false
    · rw [scc_get_latest_error, if_pos h]
      simp
    · rw [scc_get_latest_error, if_neg h]
      exact List.length_take_le _ _
  · intro h
    rw [iscc_format_error, if_pos h]
  · intro hp hlen
    have h : ¬ (len = 0 ∨ present = false) := by
      rintro (h1 | h1)
      · omega
      · rw [hp] at h1; exact absurd h1 (by simp)
    rw [scc_get_latest_error, if_neg h]
    dsimp only
    exact List.take_of_length_le (by omega)

/-- Witness for claim C9: a 40-byte buffer in the no-error state gets the
complete no-error message and a `true` return. -/
theorem claim_C9_witness :
    (scc_get_latest_error 40 true iscc_reset_error).1 ≠ false ∧
    (scc_get_latest_error 40 true iscc_reset_error).2
      = iscc_format_error iscc_reset_error := by
  obtain ⟨h1, -, -, h4⟩ := claim_C9 40 true iscc_reset_error
  exact ⟨fun hc => absurd (h1.mp hc) (by decide), h4 rfl (by decide)⟩

end SCC
